import Mathlib

/-
Verification of the start-list scraping engine: a shallow embedding of the
three Python scrapers (pdf_scraper.py, usaw_other_scraper.py,
usamw/usamw_scraper.py) and proofs of the specification claims about them.
Strings are modelled as lists of characters; Python string methods used by
the source (strip, title, capitalize, split, isdigit, "in", startswith) are
embedded for the ASCII inputs the scrapers consume.
-/

/-- Characters are processed as lists, matching Python's sequence view of `str`. -/
abbrev Str := List Char

/-- Python's `\s` / `str.strip` whitespace class, restricted to ASCII. -/
def pySpace (c : Char) : Bool :=
  c = ' ' || c = '\t' || c = '\n' || c = '\r' || c = '\x0b' || c = '\x0c'

/-- Python `str.lstrip()` (no argument): drop leading whitespace. -/
def lstrip (l : Str) : Str := l.dropWhile pySpace

/-- Python `str.rstrip()` (no argument): drop trailing whitespace. -/
def rstrip (l : Str) : Str := (lstrip l.reverse).reverse

/-- Python `str.strip()` (no argument): drop whitespace at both ends. -/
def pyStrip (l : Str) : Str := rstrip (lstrip l)

/-- Helper for `pyTitle`: the flag records whether the previous character was
a letter (Python capitalizes a letter exactly when it does not follow one). -/
def pyTitleGo : Bool → Str → Str
  | _, [] => []
  | prev, c :: cs =>
    if c.isAlpha then (if prev then c.toLower else c.toUpper) :: pyTitleGo true cs
    else c :: pyTitleGo false cs

/-- Python `str.title()` on ASCII text. -/
def pyTitle (l : Str) : Str := pyTitleGo false l

/-- Python `str.capitalize()`: first character uppercased, the rest lowercased. -/
def pyCapitalize : Str → Str
  | [] => []
  | c :: cs => c.toUpper :: cs.map Char.toLower

/-- Python `str.split(sep)` with a one-character separator: keeps empty parts. -/
def splitChar (sep : Char) : Str → List Str
  | [] => [[]]
  | c :: cs =>
    if c = sep then [] :: splitChar sep cs
    else
      match splitChar sep cs with
      | [] => [[c]]
      | p :: ps => (c :: p) :: ps

/-- Helper for `splitWs`; `acc` is the current token, reversed. -/
def splitWsAux : Str → Str → List Str
  | [], acc => if acc.isEmpty then [] else [acc.reverse]
  | c :: cs, acc =>
    if pySpace c then
      if acc.isEmpty then splitWsAux cs [] else acc.reverse :: splitWsAux cs []
    else splitWsAux cs (c :: acc)

/-- Python `str.split()` with no argument: split on whitespace runs, no empty parts. -/
def splitWs (l : Str) : List Str := splitWsAux l []

/-- Python `str.isdigit()` for ASCII: nonempty and all decimal digits. -/
def isDigits (l : Str) : Bool := !l.isEmpty && l.all Char.isDigit

/-- Python `int(...)` on a string of decimal digits. -/
def natOfDigits (l : Str) : Nat := l.foldl (fun a c => 10 * a + (c.toNat - 48)) 0

/-- Python's substring test `needle in hay`. -/
def containsSub (needle : Str) : Str → Bool
  | [] => needle.isEmpty
  | c :: cs => needle.isPrefixOf (c :: cs) || containsSub needle cs

/-- Python `str.split(sep, 1)` when the separator occurs: the text before the
first separator and the text after it.  `none` when the separator is absent. -/
def pySplit1 (sep : Char) : Str → Option (Str × Str)
  | [] => none
  | c :: cs =>
    if c = sep then some ([], cs)
    else (pySplit1 sep cs).map (fun p => (c :: p.1, p.2))

/-- `' '.join(parts)`. -/
def joinSpace (ps : List Str) : Str := List.intercalate [' '] ps

/-- usaw_other_scraper.format_name: convert `"LAST, First"` to `"First Last"`
with per-word title capitalization; without a comma, just strip and title. -/
def format_name (name : Str) : Str :=
  match pySplit1 ',' name with
  | some (last, first) => pyTitle (pyStrip first) ++ [' '] ++ pyTitle (pyStrip last)
  | none => pyTitle (pyStrip name)

/-- The text before the first comma of `s` (spec-level description). -/
def beforeFirstComma (s : Str) : Str := s.takeWhile (fun c => c ≠ ',')

/-- The text after the first comma of `s` (spec-level description). -/
def afterFirstComma (s : Str) : Str := s.drop ((beforeFirstComma s).length + 1)

/-- pdf_scraper.parse_start_list lines 119-127: split the combined
session+platform token with `re.match(r'(\d+)([A-Za-z]+)', ...)`; on a match
the digit run is the session and the letter run, capitalized, the platform;
otherwise the whole token is the session and the platform is empty. -/
def parseSessionPlatform (tok : Str) : Str × Str :=
  let ds := tok.takeWhile Char.isDigit
  let rest := tok.drop ds.length
  let ls := rest.takeWhile Char.isAlpha
  if !ds.isEmpty && !ls.isEmpty then (ds, pyCapitalize ls) else (tok, [])

/-- Stable insertion used to model CPython's stable `sorted(data, key=...)`:
an element is placed before the first already-sorted element it compares
`le`-true against, so elements with equal keys keep their original order. -/
def pyInsert {α : Type} (le : α → α → Bool) (x : α) : List α → List α
  | [] => [x]
  | y :: ys => if le x y then x :: y :: ys else y :: pyInsert le x ys

/-- Model of Python `sorted(l, key=...)` for a total, transitive boolean key
comparison: a stable, key-ordered permutation of `l`. -/
def pySorted {α : Type} (le : α → α → Bool) : List α → List α
  | [] => []
  | x :: xs => pyInsert le x (pySorted le xs)

/-- Canonical record built by usamw_scraper.parse_start_list (all ten CSV
fields; `session_number`, `session_platform` are the empty string and `meet`
a constant, as in the source). -/
structure MEntry where
  member_id : Nat
  name : Str
  age : Nat
  club : Str
  gender : Str
  weight_class : Str
  entry_total : Nat
  session_number : Str
  session_platform : Str
  meet : Str
deriving DecidableEq

/-- Python `s.rstrip('kg')`: remove trailing characters drawn from {'k','g'}. -/
def rstripKG (l : Str) : Str := (l.reverse.dropWhile (fun c => c = 'k' || c = 'g')).reverse

/-- Python `s.rstrip('+')`: remove trailing '+' characters. -/
def rstripPlus (l : Str) : Str := (l.reverse.dropWhile (fun c => c = '+')).reverse

/-- usamw_scraper.save_to_csv.weight_class_to_number, scaled by 2 so the value
stays in ℕ: the source computes a float that is either an integer `n`
(represented here as `2*n`) or `n + 0.5` (represented as `2*n + 1`), both
exact in floating point, so comparisons of the scaled values agree exactly
with the source's float comparisons.  `none` models `float(...)` raising on a
non-numeric base. -/
def weight_class_to_number_x2 (wc : Str) : Option Nat :=
  let base := rstripKG wc
  if base.getLast? = some '+' then
    let b := rstripPlus base
    if isDigits b then some (2 * natOfDigits b + 1) else none
  else if isDigits base then some (2 * natOfDigits base) else none

/-- First component of the source's sort key: `x['gender'] != 'Female'`
(False sorts before True, putting Female first). -/
def genderKey (e : MEntry) : Bool := decide (e.gender ≠ "Female".data)

/-- Third component of the source's sort key (scaled weight-class number;
the default is never consulted for entries whose weight class parses, which
is a hypothesis of the sorting theorem — on other entries the source's
`float` raises instead of producing an ordering). -/
def wcKey (e : MEntry) : Nat := (weight_class_to_number_x2 e.weight_class).getD 0

/-- The composite comparison of usamw_scraper.save_to_csv's sort key
`(gender != 'Female', -age, weight_class_to_number(...))`: lexicographic on
(gender key ascending, age descending, weight-class number ascending). -/
def keyLe (x y : MEntry) : Bool :=
  (!genderKey x && genderKey y) ||
    (genderKey x == genderKey y &&
      (decide (y.age < x.age) || (x.age == y.age && decide (wcKey x ≤ wcKey y))))

/-- usamw_scraper.save_to_csv lines 110-119: the roster is sorted by
(Female first, age descending, weight class ascending) before being written. -/
def sorted_data (data : List MEntry) : List MEntry := pySorted keyLe data

/-- An entry with weight class "105kg" (used by the C5 witness). -/
def e105 : MEntry :=
  ⟨2001, "Ann Ames".data, 45, "Club".data, "Female".data, "105kg".data, 200,
    [], [], "USAMW Master\x27s Nationals".data⟩

/-- The same entry except for weight class "105+kg" (used by the C5 witness). -/
def e105p : MEntry :=
  { e105 with member_id := 2002, weight_class := "105+kg".data }

namespace Usamw

/-- The tail `\s+(\d+)\s+(.+)$` of the fixed-format regex, matched at a given
suffix: maximal whitespace run, then maximal digit run, then a whitespace run,
then the rest.  When nothing remains for `.+`, the final greedy `\s+` gives
one character back to it, exactly as the regex engine backtracks; shortening
the other greedy runs can never help, because the character after a shortened
run repeats the run's own class. -/
def tailMatch (rest : Str) : Option (Str × Str) :=
  let ws := rest.takeWhile pySpace
  if ws.isEmpty then none
  else
    let r1 := rest.drop ws.length
    let d := r1.takeWhile Char.isDigit
    if d.isEmpty then none
    else
      let r2 := r1.drop d.length
      let ws2 := r2.takeWhile pySpace
      if ws2.isEmpty then none
      else
        let r3 := r2.drop ws2.length
        if !r3.isEmpty then some (d, r3)
        else if ws2.length ≥ 2 then some (d, ws2.drop (ws2.length - 1))
        else none

/-- The character class `[A-Za-z\s]` of the lazy name group. -/
def nameClass (c : Char) : Bool := c.isAlpha || pySpace c

/-- Lazy matching of `([A-Za-z\s]+?)\s+(\d+)\s+(.+)$` with the name group
already holding `acc` (reversed): try the tail first (shortest name wins),
then extend the name by one class character, as the engine's lazy `+?` does. -/
def nameLoop (acc : Str) : Str → Option (Str × Str × Str)
  | [] =>
    match tailMatch [] with
    | some (t, c) => some (acc.reverse, t, c)
    | none => none
  | c :: rest2 =>
    match tailMatch (c :: rest2) with
    | some (t, cl) => some (acc.reverse, t, cl)
    | none => if nameClass c then nameLoop (c :: acc) rest2 else none

/-- Start the lazy name group at the head of `v` (it must consume ≥ 1 char). -/
def nameSearch : Str → Option (Str × Str × Str)
  | [] => none
  | c :: rest => if nameClass c then nameLoop [c] rest else none

/-- The greedy `\s+` before the name group tries the longest whitespace run
first and then gives characters back to the lazy name group (which may then
begin with whitespace): positions `a = m, m-1, …, 1` of the name start. -/
def wsNameSearch (R : Str) : Nat → Option (Str × Str × Str)
  | 0 => none
  | a + 1 =>
    match nameSearch (R.drop (a + 1)) with
    | some r => some r
    | none => wsNameSearch R a

/-- usamw_scraper.parse_start_list line 44: Python
`re.match(r'^([MW]\d+)\s+(\d+\+?)\s+(\d+)\s+([A-Za-z\s]+?)\s+(\d+)\s+(.+)$', line)`
returning the six captured groups (category, weight, age, full name, total,
club).  The greedy `\s+`/`\d+` runs are maximal-munch; the optional `+` of
group 2 is kept only when whitespace follows it (otherwise the engine
backtracks over it and then fails on `\s+`). -/
def matchFixed (l : Str) : Option (Str × Str × Str × Str × Str × Str) :=
  match l with
  | [] => none
  | c :: r =>
    if c = 'M' || c = 'W' then
      let d1 := r.takeWhile Char.isDigit
      if d1.isEmpty then none
      else
        let r1 := r.drop d1.length
        let ws1 := r1.takeWhile pySpace
        if ws1.isEmpty then none
        else
          let r2 := r1.drop ws1.length
          let d2 := r2.takeWhile Char.isDigit
          if d2.isEmpty then none
          else
            let r3 := r2.drop d2.length
            let pl : Bool :=
              match r3 with
              | '+' :: t => !(t.takeWhile pySpace).isEmpty
              | _ => false
            let g2 := if pl then d2 ++ ['+'] else d2
            let r4 := if pl then r3.drop 1 else r3
            let ws2 := r4.takeWhile pySpace
            if ws2.isEmpty then none
            else
              let r5 := r4.drop ws2.length
              let d3 := r5.takeWhile Char.isDigit
              if d3.isEmpty then none
              else
                let R := r5.drop d3.length
                match wsNameSearch R (R.takeWhile pySpace).length with
                | none => none
                | some (nm, tot, club) => some (c :: d1, g2, d3, nm, tot, club)
    else none

/-- One `random.randint(2000, 3000)` draw: the stream `rng` supplies the
randomness; draw number `k` yields `2000 + rng k % 1001`, covering exactly
the source's inclusive range. -/
def draw (rng : Nat → Nat) (k : Nat) : Nat := 2000 + rng k % 1001

/-- usamw_scraper.parse_start_list lines 50-55: draw, and redraw while the
drawn id collides with `used_member_ids`.  The source's `while True` loop is
modelled with explicit fuel; `none` corresponds to the loop not terminating
within the fuel's worth of draws. -/
def pickId (rng : Nat → Nat) : Nat → Nat → List Nat → Option (Nat × Nat)
  | _, 0, _ => none
  | k, fuel + 1, used =>
    let mid := draw rng k
    if mid ∈ used then pickId rng (k + 1) fuel used else some (mid, k + 1)

/-- usamw_scraper.parse_start_list lines 57-86: assemble the entry from the
six captured groups (the name handling is the source's inline copy of
parse_name: "LAST First Middle" becomes "First Middle Last", title-cased). -/
def buildEntry (mid : Nat) (category weight age fullName total club : Str) : MEntry :=
  let gender := if category.head? = some 'W' then "Female".data else "Male".data
  let nameParts := splitWs (pyStrip fullName)
  let name :=
    match nameParts with
    | last :: first1 :: restParts =>
        pyTitle (joinSpace (first1 :: restParts)) ++ [' '] ++ pyTitle last
    | _ => pyTitle fullName
  { member_id := mid, name := name, age := natOfDigits age, club := pyStrip club,
    gender := gender, weight_class := weight ++ "kg".data, entry_total := natOfDigits total,
    session_number := [], session_platform := [],
    meet := "USAMW Master\x27s Nationals".data }

/-- usamw_scraper.parse_start_list lines 35-91: the per-line loop, threading
the rng draw cursor and `used_member_ids` across lines. -/
def parseLines (rng : Nat → Nat) (fuel : Nat) :
    List Str → Nat → List Nat → Option (List MEntry)
  | [], _, _ => some []
  | line :: rest, k, used =>
    let l := pyStrip line
    if l.isEmpty then parseLines rng fuel rest k used
    else
      match matchFixed l with
      | none => parseLines rng fuel rest k used
      | some (category, weight, age, fullName, total, club) =>
        match pickId rng k fuel used with
        | none => none
        | some (mid, k2) =>
          (parseLines rng fuel rest k2 (mid :: used)).map
            (fun es => buildEntry mid category weight age fullName total club :: es)

/-- usamw_scraper.parse_start_list applied to the whole extracted text. -/
def parse_start_list (rng : Nat → Nat) (fuel : Nat) (text : Str) : Option (List MEntry) :=
  parseLines rng fuel (splitChar '\n' text) 0 []

end Usamw

/-- Two parseable fixed-format lines (C1 witness input). -/
def c1Text : Str :=
  "M70 70 35 SMITH JOHN 200 Team One\nW55 55 40 DOE JANE 120 Team Two".data

/-- The fixed-grammar line on which the usamw variant accepts an
out-of-range age (C2 counterexample input). -/
def c2Text : Str := "M70 70 150 SMITH JOHN 200 Club".data

namespace UsawOther

/-- Outcome of one line of usaw_other_scraper.parse_start_list: silently
passed over, skipped with a collected diagnostic, or parsed into an entry. -/
inductive LineOutcome where
  | ignore : LineOutcome
  | skip : Str → LineOutcome
  | entry : MEntry → LineOutcome
deriving DecidableEq

/-- The skipped-line diagnostic `f"Skipped ({reason}): {line}"`. -/
def mkSkip (reason line : Str) : Str :=
  "Skipped (".data ++ reason ++ "): ".data ++ line

/-- Substrings whose presence makes a line header/schedule noise (line 50). -/
def noiseSubs : List Str :=
  ["Weigh In".data, "Start".data, "2025 USAW".data, "owlcms".data,
    "Session Date".data, "Page".data]

/-- Leading tokens of date lines (line 54). -/
def dayPres : List Str := ["Thu".data, "Fri".data, "Sat".data, "Sun".data, "Apr".data]

/-- Substrings marking platform lines (line 58). -/
def platformSubs : List Str :=
  ["RED F".data, "RED M".data, "BLUE F".data, "BLUE M".data,
    "WHITE F".data, "WHITE M".data]

/-- Python `re.match(r'^[WM]\d+$', line)`: a bare weight-class line (line 62). -/
def isWMDigits (l : Str) : Bool :=
  match l with
  | c :: rest => (c = 'W' || c = 'M') && isDigits rest
  | [] => false

/-- Lines 73-79: the number of leading prefix tokens ('GA' optionally followed
by a 'U…' token, or a 'W'/'M'-initial or 'ADAP' token) that consume position. -/
def prefixStart (parts : List Str) : Nat :=
  match parts with
  | [] => 0
  | p0 :: restP =>
    if p0 = "GA".data then
      match restP with
      | p1 :: _ => if p1.head? = some 'U' then 2 else 1
      | [] => 1
    else if (p0.head? = some 'W' || p0.head? = some 'M') || p0 = "ADAP".data then 1
    else 0

/-- Line 83: a bare weight-class token (digits, or digits followed by '+'). -/
def isWeightTok (p : Str) : Bool :=
  isDigits p || (p.getLast? = some '+' && isDigits p.dropLast)

/-- Whether line 83 captured a weight class at the start of the line. -/
def uWAtStart (parts : List Str) : Bool :=
  prefixStart parts = 0 && isWeightTok (parts.getD 0 [])

/-- The scan start index after the prefix/weight handling of lines 72-86. -/
def uS1 (parts : List Str) : Nat := if uWAtStart parts then 1 else prefixStart parts

/-- First index `i ≥ s` of a token satisfying `pred` (the source's
`for i in range(s, len(parts))` searches). -/
def findIdxFromAux (pred : Str → Bool) : List Str → Nat → Option Nat
  | [], _ => none
  | p :: ps, i => if pred p then some i else findIdxFromAux pred ps (i + 1)

/-- See `findIdxFromAux`. -/
def findIdxFrom (pred : Str → Bool) (parts : List Str) (s : Nat) : Option Nat :=
  findIdxFromAux pred (parts.drop s) s

/-- Line 116: the name span extends past the comma token while tokens contain
no digit; `uNextIdx` is the index just after the span. -/
def uNextIdx (parts : List Str) (nidx : Nat) : Nat :=
  nidx + 1 + ((parts.drop (nidx + 1)).takeWhile (fun p => !(p.any Char.isDigit))).length

/-- Lines 121-135: a token qualifying as an age — all digits with value in
[1, 99]. -/
def isAgeTok (p : Str) : Bool :=
  isDigits p && decide (1 ≤ natOfDigits p) && decide (natOfDigits p ≤ 99)

/-- Lines 121-135: look for an age among the (up to two) tokens just before
the name span, then among the tokens after it. -/
def findAge (parts : List Str) (nidx nextIdx : Nat) : Option Nat :=
  let lo := nidx - 2
  match ((parts.drop lo).take (nidx - lo)).find? isAgeTok with
  | some p => some (natOfDigits p)
  | none =>
    match (parts.drop nextIdx).find? isAgeTok with
    | some p => some (natOfDigits p)
    | none => none

/-- Lines 141-147: an entry-total token — all digits with value in [30, 400]. -/
def isTotalTok (p : Str) : Bool :=
  isDigits p && decide (30 ≤ natOfDigits p) && decide (natOfDigits p ≤ 400)

/-- Lines 141-147: the first entry-total token after the name span. -/
def findTotal (parts : List Str) (nextIdx : Nat) : Option Nat :=
  ((parts.drop nextIdx).find? isTotalTok).map natOfDigits

/-- Lines 155-162: a standard-format weight-class token such as `W65`. -/
def isWCandTok (p : Str) : Bool :=
  (p.head? = some 'W' || p.head? = some 'M') && p.any Char.isDigit

/-- Lines 193: club-scan stop tokens. -/
def clubStop (p : Str) : Bool :=
  p = "GA".data || p = "ADAP".data || p = "MILMM".data || p = "MILMW".data ||
    p.head? = some 'U'

/-- Lines 186-195: collect the club tokens between the entry total and a stop
token (total-like tokens are passed over, not collected). -/
def clubParts : List Str → Bool → List Str
  | [], _ => []
  | p :: ps, found =>
    if isTotalTok p then clubParts ps true
    else if found then
      if clubStop p then [] else p :: clubParts ps found
    else clubParts ps found

/-- Lines 81-174: the weight-class search — the class captured at the start
of the line if line 83 fired, else the first standard-format token (which
also fixes the gender), else a bare weight token among the first three
parts; `none` means the line is skipped. -/
def findWeight (parts : List Str) : Option (Str × Option Str) :=
  if uWAtStart parts then some ((parts.getD 0 []) ++ "kg".data, none)
  else
    match parts.find? isWCandTok with
    | some p =>
        some (((p.drop 1).filter (fun c => c.isDigit || c = '+')) ++ "kg".data,
          some (if p.head? = some 'W' then "Female".data else "Male".data))
    | none =>
      match (parts.take 3).find? isWeightTok with
      | some p => some (p ++ "kg".data, none)
      | none => none

/-- Lines 177-183: gender fallback when no weight token fixed it. -/
def genderDefault (parts : List Str) (line : Str) : Str :=
  if parts.contains "MILMW".data ||
      [", Ms".data, ", Mrs".data, "MISS".data].any (fun n => containsSub n line) then
    "Female".data
  else "Male".data

/-- Lines 186-199: the club string, with the 'Unaffiliated' sentinel. -/
def clubOf (parts : List Str) (nextIdx : Nat) : Str :=
  let c0 := pyStrip (joinSpace (clubParts (parts.drop nextIdx) false))
  if c0.isEmpty then "Unaffiliated".data else c0

/-- Lines 100-206: the record assembled for a successfully parsed line
(session fields empty, constant meet label). -/
def buildEntryU (mid : Nat) (name : Str) (age : Nat) (club gender wc : Str)
    (total : Nat) : MEntry :=
  { member_id := mid, name := name, age := age, club := club, gender := gender,
    weight_class := wc, entry_total := total, session_number := [],
    session_platform := [], meet := "USAW Master\x27s Nationals".data }

/-- usaw_other_scraper.parse_start_list lines 44-210: the processing of one
line of the heterogeneous variant. -/
def uParseLine (line0 : Str) : LineOutcome :=
  let line := pyStrip line0
  if line.isEmpty then .ignore
  else if noiseSubs.any (fun n => containsSub n line) then .ignore
  else if dayPres.any (fun d => d.isPrefixOf line) then .ignore
  else if platformSubs.any (fun n => containsSub n line) then .ignore
  else if isWMDigits line then .ignore
  else
    let parts := splitWs line
    if parts.length < 4 then .ignore
    else
      match findIdxFrom isDigits parts (uS1 parts) with
      | none => .skip (mkSkip "no valid ID".data line)
      | some i =>
        match findIdxFrom (fun p => p.contains ',') parts (i + 1) with
        | none => .skip (mkSkip "no comma in name".data line)
        | some nidx =>
          match findAge parts nidx (uNextIdx parts nidx) with
          | none => .skip (mkSkip "no age found".data line)
          | some age =>
            match findTotal parts (uNextIdx parts nidx) with
            | none => .skip (mkSkip "no total found".data line)
            | some total =>
              match findWeight parts with
              | none => .skip (mkSkip "no weight class found".data line)
              | some (wc, genderOpt) =>
                let nameTail :=
                  (parts.drop (nidx + 1)).takeWhile (fun p => !(p.any Char.isDigit))
                .entry (buildEntryU (natOfDigits (parts.getD i []))
                  (format_name (joinSpace (parts.getD nidx [] :: nameTail))) age
                  (clubOf parts (uNextIdx parts nidx))
                  (genderOpt.getD (genderDefault parts line)) wc total)

/-- The per-line loop of parse_start_list: entries in order, diagnostics in
order. -/
def parseLinesU : List Str → List MEntry × List Str
  | [] => ([], [])
  | l :: rest =>
    let r := parseLinesU rest
    match uParseLine l with
    | .ignore => r
    | .skip d => (r.1, d :: r.2)
    | .entry e => (e :: r.1, r.2)

/-- The header line whose first occurrence starts the data region (line 39). -/
def headerStr : Str :=
  "Session Date Gndr Group Cat Lot Age Name Total Team Comps".data

/-- Lines 36-41: index just after the first header line, 0 when absent. -/
def startIdxAux : List Str → Nat → Nat
  | [], _ => 0
  | l :: ls, i => if containsSub headerStr l then i + 1 else startIdxAux ls (i + 1)

/-- usaw_other_scraper.parse_start_list applied to the whole extracted text:
the parsed entries together with the collected skip diagnostics. -/
def parse_start_list (text : Str) : List MEntry × List Str :=
  let lines := splitChar '\n' text
  parseLinesU (lines.drop (startIdxAux lines 0))

end UsawOther

/-- A default entry (used only to take heads of concrete entry lists). -/
def dEntry : MEntry := ⟨0, [], 0, [], [], [], 0, [], [], []⟩

namespace Pdf

/-- Python `re.sub(r'\s+', ' ', s)`: replace each maximal whitespace run by a
single space. -/
def collapseWs : Str → Str
  | [] => []
  | [c] => if pySpace c then [' '] else [c]
  | a :: b :: cs =>
    if pySpace a && pySpace b then collapseWs (b :: cs)
    else (if pySpace a then ' ' else a) :: collapseWs (b :: cs)

/-- pdf_scraper.clean_categories: collapse whitespace, strip, split on '/',
strip each part, and rejoin with the canonical `" / "` separator. -/
def clean_categories (categories : Str) : Str :=
  let c := pyStrip (collapseWs categories)
  List.intercalate " / ".data ((splitChar '/' c).map pyStrip)

/-- Generic engine for `re.search`: the first position (scanning left to
right) at which the head-matcher `f` succeeds, with `f`'s result. -/
def searchFirst {α : Type} (f : Str → Option α) : Str → Nat → Option (Nat × α)
  | [], _ => none
  | c :: rest, i =>
    match f (c :: rest) with
    | some x => some (i, x)
    | none => searchFirst f rest (i + 1)

/-- Head match of the state anchor `\s([A-Z]{2})\s` (the captured letters). -/
def stateAt : Str → Option (Char × Char)
  | a :: b :: c :: d :: _ =>
    if pySpace a && b.isUpper && c.isUpper && pySpace d then some (b, c) else none
  | _ => none

/-- Head match of the gender anchor `\s([MW])\s` (the captured letter). -/
def genderAt : Str → Option Char
  | a :: b :: c :: _ =>
    if pySpace a && (b = 'M' || b = 'W') && pySpace c then some b else none
  | _ => none

/-- Head match of the group anchor `/\s+([A-Z])\s+`: the captured letter and
the length of the whole (greedy) match. -/
def groupAt (l : Str) : Option (Char × Nat) :=
  match l with
  | '/' :: rest =>
    let ws1 := rest.takeWhile pySpace
    if ws1.isEmpty then none
    else
      match rest.drop ws1.length with
      | g :: rest2 =>
        if g.isUpper then
          let ws2 := rest2.takeWhile pySpace
          if ws2.isEmpty then none
          else some (g, 1 + ws1.length + 1 + ws2.length)
        else none
      | [] => none
  | _ => none

/-- The competitor dictionary built by pdf_scraper.parse_start_list
(lines 133-147); every field is stored as a string, as in the source. -/
structure PEntry where
  lot : Str
  name : Str
  state : Str
  age : Str
  club : Str
  gender : Str
  categories : Str
  group : Str
  entryTotal : Str
  session : Str
  platform : Str
  day : Str
  time : Str
deriving DecidableEq

/-- Builds the entry dictionary of lines 133-147. -/
def buildEntryP (lot name state age club gender categories group entryTotal
    session platform day time : Str) : PEntry :=
  { lot := lot, name := name, state := state, age := age, club := club,
    gender := gender, categories := categories, group := group,
    entryTotal := entryTotal, session := session, platform := platform,
    day := day, time := time }

/-- The leading lot-number anchor `^(\d+)`. -/
def pLot (l : Str) : Str := l.takeWhile Char.isDigit

/-- `rest_of_line`: the stripped text after the lot number. -/
def pRest0 (l : Str) : Str := pyStrip (l.drop (pLot l).length)

/-- `rest_after_state` for a state anchor found at `si`. -/
def pRest1 (l : Str) (si : Nat) : Str := pyStrip ((pRest0 l).drop (si + 4))

/-- The age anchor `(\d{1,2})` matched at the start of `rest_after_state`. -/
def pAge (l : Str) (si : Nat) : Str := ((pRest1 l si).takeWhile Char.isDigit).take 2

/-- `rest_after_age`. -/
def pRest2 (l : Str) (si : Nat) : Str :=
  pyStrip ((pRest1 l si).drop (pAge l si).length)

/-- `rest_after_gender` for a gender anchor found at `gi`. -/
def pRest3 (l : Str) (si gi : Nat) : Str := pyStrip ((pRest2 l si).drop (gi + 3))

/-- pdf_scraper.parse_start_list lines 62-149: parse one data line of the
tabular-anchor variant; `none` whenever any anchor search fails or fewer
than five whitespace-separated tokens follow the group anchor (line 116
requires `len(parts) >= 5`; the line is then skipped). -/
def pParseLine (l : Str) : Option PEntry :=
  if (pLot l).isEmpty then none
  else
    match searchFirst stateAt (pRest0 l) 0 with
    | none => none
    | some (si, b, c) =>
      if (pAge l si).isEmpty then none
      else
        match searchFirst genderAt (pRest2 l si) 0 with
        | none => none
        | some (gi, g) =>
          match searchFirst groupAt (pRest3 l si gi) 0 with
          | none => none
          | some (ri, grp, len0) =>
            match splitWs (pyStrip ((pRest3 l si gi).drop (ri + len0))) with
            | t :: sp :: dy :: tm1 :: tm2 :: tms =>
              some (buildEntryP (pLot l) (pyStrip ((pRest0 l).take si)) [b, c]
                (pAge l si) (pyStrip ((pRest2 l si).take gi)) [g]
                (clean_categories (pyStrip ((pRest3 l si gi).take ri))) [grp] t
                (parseSessionPlatform sp).1 (parseSessionPlatform sp).2 dy
                (joinSpace (tm1 :: tm2 :: tms)))
            | _ => none

/-- The data-region header of pdf_scraper.parse_start_list line 47. -/
def headerP : Str :=
  "Lot First Name Last Name State Age Club Name Gender CATEGORIES Group Entry Total Session Platform Day Lifting Time".data

/-- The banner of line 52. -/
def presentedP : Str := "Start List presented by:".data

/-- pdf_scraper.parse_start_list lines 41-149: the per-line loop; the flag
records whether the header line has been seen (before it, lines are
discarded). -/
def pParseLines : Bool → List Str → List PEntry
  | _, [] => []
  | seen, line :: rest =>
    let l := pyStrip line
    if l.isEmpty then pParseLines seen rest
    else if containsSub headerP l then pParseLines true rest
    else if containsSub presentedP l then pParseLines seen rest
    else if !seen then pParseLines seen rest
    else
      match pParseLine l with
      | some e => e :: pParseLines seen rest
      | none => pParseLines seen rest

/-- pdf_scraper.parse_start_list applied to the whole extracted text. -/
def parse_start_list (text : Str) : List PEntry :=
  pParseLines false (splitChar '\n' text)

/-- Head match of `([MW])\s+(\d+)` (extract_weight_class's pattern): the
captured gender letter, the whitespace run, and the captured digits. -/
def wcAt : Str → Option (Char × Str × Str)
  | [] => none
  | g :: rest =>
    if g = 'M' || g = 'W' then
      if (rest.takeWhile pySpace).isEmpty then none
      else
        if ((rest.drop (rest.takeWhile pySpace).length).takeWhile Char.isDigit).isEmpty then
          none
        else
          some (g, rest.takeWhile pySpace,
            (rest.drop (rest.takeWhile pySpace).length).takeWhile Char.isDigit)
    else none

/-- `re.finditer(r'([MW])\s+(\d+)', s)`: positions and captured groups of
the non-overlapping leftmost matches, scanning left to right.  The fuel
argument keeps the recursion structural; every step consumes at least one
character, so fuel equal to the string length (as `findIterWC` passes)
reproduces the unbounded scan. -/
def findIterWCAux : Nat → Str → Nat → List (Nat × Char × Str)
  | 0, _, _ => []
  | _, [], _ => []
  | fuel + 1, c :: cs, pos =>
    match wcAt (c :: cs) with
    | some (g, ws, d) =>
        (pos, g, d) ::
          findIterWCAux fuel (cs.drop (ws.length + d.length)) (pos + 1 + ws.length + d.length)
    | none => findIterWCAux fuel cs (pos + 1)

/-- See `findIterWCAux`. -/
def findIterWC (s : Str) : List (Nat × Char × Str) := findIterWCAux s.length s 0

/-- pdf_scraper.extract_weight_class lines 153-164: one tag, the
concatenation of the two captured groups, per match, in match order. -/
def extract_weight_class (categories : Str) : List Str :=
  (findIterWC categories).map (fun m => m.2.1 :: m.2.2)

/-- pdf_scraper.extract_age_group lines 166-190: the fixed vocabulary. -/
def ageGroupPats : List Str :=
  ["U13".data, "14-15".data, "16-17".data, "JUNIOR".data, "OPEN".data,
    "35".data, "40".data, "45".data, "50".data, "55".data, "60".data,
    "65".data, "70".data, "UNI".data]

/-- pdf_scraper.extract_age_group: every vocabulary pattern that occurs in
the categories text (all patterns are regex-literal, so `re.search` is a
substring test), in vocabulary order. -/
def extract_age_group (categories : Str) : List Str :=
  ageGroupPats.filter (fun p => containsSub p categories)

/-- A value stored in an entry dictionary: parse_start_list stores strings,
enrich_data adds lists of strings. -/
inductive Val where
  | s : Str → Val
  | l : List Str → Val
deriving DecidableEq

/-- A Python dict with string keys: an ordered association list (Python
dicts preserve insertion order, and updating an existing key keeps its
position). -/
abbrev Dict := List (Str × Val)

/-- `d[k]` lookup. -/
def dictGet (d : Dict) (k : Str) : Option Val :=
  match d with
  | [] => none
  | (k2, v) :: rest => if k2 = k then some v else dictGet rest k

/-- `d[k] = v`: replace in place, or append a new key. -/
def dictSet (d : Dict) (k : Str) (v : Val) : Dict :=
  match d with
  | [] => [(k, v)]
  | (k2, v2) :: rest => if k2 = k then (k2, v) :: rest else (k2, v2) :: dictSet rest k v

/-- The Python object heap restricted to the entry dictionaries: an address
is an index into this list.  `entry.copy()` allocates a fresh dictionary at
a fresh address; `entry[key] = v` writes through an address. -/
abbrev Heap := List Dict

/-- pdf_scraper.enrich_data lines 196-212 for one entry address: copy the
dictionary, then add 'weight_classes' and 'age_groups' to the copy when the
corresponding extraction is nonempty (both reads of `entry['categories']`
are from the original dictionary, as in the source).  `none` models the
`TypeError` `re.finditer` raises when the stored 'categories' value is not a
string. -/
def enrichStep (h : Heap) (a : Nat) : Option (Heap × Nat) :=
  match dictGet (h.getD a []) "categories".data with
  | some (.l _) => none
  | none => some (h ++ [h.getD a []], h.length)
  | some (.s cat) =>
    let d := h.getD a []
    let h1 := h ++ [d]
    let na := h.length
    let wcs := extract_weight_class cat
    let h2 := if wcs.isEmpty then h1 else h1.set na (dictSet d "weight_classes".data (.l wcs))
    let ags := extract_age_group cat
    let h3 :=
      if ags.isEmpty then h2
      else h2.set na (dictSet (h2.getD na []) "age_groups".data (.l ags))
    some (h3, na)

/-- pdf_scraper.enrich_data lines 192-214: enrich every entry in order,
threading the heap and collecting the addresses of the fresh copies. -/
def enrich_data (h : Heap) : List Nat → Option (Heap × List Nat)
  | [] => some (h, [])
  | a :: rest =>
    match enrichStep h a with
    | none => none
    | some (h1, na) =>
      match enrich_data h1 rest with
      | none => none
      | some (h2, nas) => some (h2, na :: nas)

end Pdf

/-- A concrete entry dictionary for the C10 witness. -/
def c10Dict : Pdf.Dict :=
  [("categories".data, Pdf.Val.s "M 70 / M 75".data), ("name".data, Pdf.Val.s "Ann".data)]

def glueSplit : List Str → List Str → List Str
  | [], r => r
  | [p], [] => [p]
  | [p], h :: t => (p ++ h) :: t
  | p :: q :: ps, r => p :: glueSplit (q :: ps) r

namespace Pdf

/-- No two adjacent whitespace characters. -/
def noAdjWs (a b : Char) : Prop := ¬(pySpace a = true ∧ pySpace b = true)

/-- Whitespace-normal form: every whitespace character is a plain space and
no two whitespace characters are adjacent. -/
def NormWs (s : Str) : Prop :=
  (∀ c ∈ s, pySpace c = true → c = ' ') ∧ s.Chain' noAdjWs

/-- A segment already emitted by `clean_categories`: whitespace-normal,
stripped at both ends, and free of the separator. -/
def cleanPart (q : Str) : Prop := NormWs q ∧ pyStrip q = q ∧ '/' ∉ q

end Pdf

theorem pySplit1_eq_some {s : Str} (h : s.contains ',' = true) :
    pySplit1 ',' s = some (beforeFirstComma s, afterFirstComma s) := by
  induction s with
  | nil => simp [List.contains] at h
  | cons c cs ih =>
    by_cases hc : c = ','
    · subst hc
      simp [pySplit1, beforeFirstComma, afterFirstComma]
    · have hcs : cs.contains ',' = true := by
        simp [List.contains] at h ⊢
        rcases h with h | h
        · exact absurd h.symm hc
        · exact h
      simp only [pySplit1, if_neg hc, ih hcs, Option.map_some]
      simp [beforeFirstComma, afterFirstComma, hc]

/-- C6: for every input containing a comma, name reformatting produces the
title-cased text after the first comma, a space, then the title-cased text
before the first comma; in particular `"SMITH, John Paul" ↦ "John Paul Smith"`. -/
theorem c6_format_name (s : Str) (h : s.contains ',' = true) :
    format_name s =
      pyTitle (pyStrip (afterFirstComma s)) ++ [' '] ++ pyTitle (pyStrip (beforeFirstComma s)) := by
  simp [format_name, pySplit1_eq_some h]

/-- Witness for C6 at the spec's example input. -/
theorem c6_format_name_witness :
    "SMITH, John Paul".data.contains ',' = true ∧
      format_name "SMITH, John Paul".data = "John Paul Smith".data ∧
      pyTitle (pyStrip (afterFirstComma "SMITH, John Paul".data)) ++ [' '] ++
          pyTitle (pyStrip (beforeFirstComma "SMITH, John Paul".data)) =
        "John Paul Smith".data := by
  refine ⟨by decide, by decide, ?_⟩
  rw [← c6_format_name "SMITH, John Paul".data (by decide)]
  decide

/-- ASCII letters and decimal digits are disjoint character classes. -/
theorem alpha_not_digit (c : Char) (h : c.isAlpha = true) : c.isDigit = false := by
  simp only [Char.isAlpha, Char.isUpper, Char.isLower, Char.isDigit, Bool.or_eq_true,
    Bool.and_eq_true, decide_eq_true_eq] at *
  simp only [Bool.and_eq_false_iff, decide_eq_false_iff_not]
  rcases h with ⟨h1, _⟩ | ⟨h1, _⟩ <;>
  · right
    intro hle
    have hle' : c.val.toNat ≤ (57 : UInt32).toNat := hle
    have h57 : (57 : UInt32).toNat = 57 := rfl
    rw [h57] at hle'
    first
      | (have h1' : (65 : Nat) ≤ c.val.toNat := h1
         omega)
      | (have h1' : (97 : Nat) ≤ c.val.toNat := h1
         omega)

theorem takeWhile_append_all {p : Char → Bool} {xs ys : Str}
    (hx : ∀ c ∈ xs, p c = true) (hy : ys.takeWhile p = []) :
    (xs ++ ys).takeWhile p = xs := by
  induction xs with
  | nil => simpa using hy
  | cons c cs ih =>
    simp only [List.cons_append, List.takeWhile_cons, hx c (by simp), if_true]
    rw [ih (fun d hd => hx d (by simp [hd]))]

theorem takeWhile_all {p : Char → Bool} {xs : Str} (hx : ∀ c ∈ xs, p c = true) :
    xs.takeWhile p = xs := by
  induction xs with
  | nil => rfl
  | cons c cs ih =>
    simp only [List.takeWhile_cons, hx c (by simp), if_true]
    rw [ih (fun d hd => hx d (by simp [hd]))]

/-- C7: a combined token made of a nonempty digit run followed by a nonempty
alphabetic run splits into the digit run (session) and the capitalized
alphabetic run (platform). -/
theorem c7_session_platform (ds ls : Str) (hd : ds ≠ []) (hl : ls ≠ [])
    (hds : ∀ c ∈ ds, c.isDigit = true) (hls : ∀ c ∈ ls, c.isAlpha = true) :
    parseSessionPlatform (ds ++ ls) = (ds, pyCapitalize ls) := by
  have h1 : (ds ++ ls).takeWhile Char.isDigit = ds := by
    apply takeWhile_append_all hds
    cases ls with
    | nil => rfl
    | cons c cs => simp [List.takeWhile_cons, alpha_not_digit c (hls c (by simp))]
  have h2 : (ds ++ ls).drop ds.length = ls := List.drop_left ds ls
  have h3 : ls.takeWhile Char.isAlpha = ls := takeWhile_all hls
  simp only [parseSessionPlatform, h1, h2, h3]
  have hd' : ds.isEmpty = false := by
    cases ds with
    | nil => exact absurd rfl hd
    | cons a as => rfl
  have hl' : ls.isEmpty = false := by
    cases ls with
    | nil => exact absurd rfl hl
    | cons a as => rfl
  simp [hd', hl']

/-- Witness for C7 at the spec's example `"1RED"`, including the numeric
reading of the session digit run. -/
theorem c7_session_platform_witness :
    parseSessionPlatform "1RED".data = ("1".data, "Red".data) ∧ natOfDigits "1".data = 1 := by
  constructor
  · have h := c7_session_platform "1".data "RED".data (by decide) (by decide)
      (by decide) (by decide)
    have h2 : parseSessionPlatform "1RED".data = ("1".data, pyCapitalize "RED".data) := h
    rw [h2]
    decide
  · decide

theorem mem_pyInsert {α : Type} {le : α → α → Bool} {x a : α} {l : List α} :
    a ∈ pyInsert le x l ↔ a = x ∨ a ∈ l := by
  induction l with
  | nil => simp [pyInsert]
  | cons y ys ih =>
    by_cases hxy : le x y = true
    · simp [pyInsert, hxy]
    · simp only [pyInsert, if_neg hxy, List.mem_cons, ih]
      tauto

theorem pyInsert_perm {α : Type} (le : α → α → Bool) (x : α) (l : List α) :
    (pyInsert le x l).Perm (x :: l) := by
  induction l with
  | nil => exact List.Perm.refl _
  | cons y ys ih =>
    by_cases hxy : le x y = true
    · simp [pyInsert, hxy]
    · simp only [pyInsert, if_neg hxy]
      exact (ih.cons y).trans (List.Perm.swap x y ys)

theorem pySorted_perm {α : Type} (le : α → α → Bool) (l : List α) :
    (pySorted le l).Perm l := by
  induction l with
  | nil => exact List.Perm.refl _
  | cons x xs ih => exact (pyInsert_perm le x (pySorted le xs)).trans (ih.cons x)

theorem pairwise_pyInsert {α : Type} {le : α → α → Bool}
    (htrans : ∀ a b c, le a b = true → le b c = true → le a c = true)
    (htot : ∀ a b, (le a b || le b a) = true)
    {x : α} {l : List α} (h : List.Pairwise (fun a b => le a b = true) l) :
    List.Pairwise (fun a b => le a b = true) (pyInsert le x l) := by
  induction l with
  | nil => simp [pyInsert]
  | cons y ys ih =>
    rw [List.pairwise_cons] at h
    by_cases hxy : le x y = true
    · simp only [pyInsert, if_pos hxy]
      refine List.Pairwise.cons ?_ (List.Pairwise.cons h.1 h.2)
      intro a ha
      rcases List.mem_cons.mp ha with rfl | ha
      · exact hxy
      · exact htrans x y a hxy (h.1 a ha)
    · have hyx : le y x = true := by
        have := htot x y
        simp [hxy] at this
        exact this
      simp only [pyInsert, if_neg hxy]
      refine List.Pairwise.cons ?_ (ih h.2)
      intro a ha
      rcases mem_pyInsert.mp ha with rfl | ha
      · exact hyx
      · exact h.1 a ha

theorem pairwise_pySorted {α : Type} {le : α → α → Bool}
    (htrans : ∀ a b c, le a b = true → le b c = true → le a c = true)
    (htot : ∀ a b, (le a b || le b a) = true) (l : List α) :
    List.Pairwise (fun a b => le a b = true) (pySorted le l) := by
  induction l with
  | nil => simp [pySorted]
  | cons x xs ih => exact pairwise_pyInsert htrans htot ih

theorem keyLe_iff (x y : MEntry) : keyLe x y = true ↔
    ((genderKey x = false ∧ genderKey y = true) ∨
      (genderKey x = genderKey y ∧
        (y.age < x.age ∨ (x.age = y.age ∧ wcKey x ≤ wcKey y)))) := by
  unfold keyLe
  cases hx : genderKey x <;> cases hy : genderKey y <;> simp

theorem keyLe_total (x y : MEntry) : (keyLe x y || keyLe y x) = true := by
  rw [Bool.or_eq_true, keyLe_iff, keyLe_iff]
  cases hx : genderKey x <;> cases hy : genderKey y <;> simp <;> omega

theorem keyLe_trans (a b c : MEntry) (h1 : keyLe a b = true) (h2 : keyLe b c = true) :
    keyLe a c = true := by
  rw [keyLe_iff] at h1 h2 ⊢
  rcases h1 with ⟨ha, hb⟩ | ⟨hab, h1⟩
  · rcases h2 with ⟨hb', hc⟩ | ⟨hbc, h2⟩
    · exact Or.inl ⟨ha, hc⟩
    · exact Or.inl ⟨ha, hbc ▸ hb⟩
  · rcases h2 with ⟨hb', hc⟩ | ⟨hbc, h2⟩
    · exact Or.inl ⟨hab.trans hb', hc⟩
    · refine Or.inr ⟨hab.trans hbc, ?_⟩
      omega

/-- C5: for every roster whose weight classes parse numerically, serialization
orders the entries by the composite key (gender with Female before Male, age
descending, weight class ascending with `+` counting as base + 0.5): the
output is key-sorted and is a permutation of the input.  (The hypothesis
scopes the claim to inputs on which the source's `float(...)` conversion
succeeds; elsewhere the source raises and orders nothing.) -/
theorem c5_roster_sort (d : List MEntry)
    (h : ∀ e ∈ d, (weight_class_to_number_x2 e.weight_class).isSome = true) :
    List.Pairwise (fun a b => keyLe a b = true) (sorted_data d) ∧ (sorted_data d).Perm d :=
  ⟨pairwise_pySorted keyLe_trans keyLe_total d, pySorted_perm keyLe d⟩

/-- Witness for C5: on two otherwise-equal entries the `105kg` one precedes
the `105+kg` one in the sorted output. -/
theorem c5_roster_sort_witness :
    (∀ e ∈ [e105p, e105], (weight_class_to_number_x2 e.weight_class).isSome = true) ∧
      (List.Pairwise (fun a b => keyLe a b = true) (sorted_data [e105p, e105]) ∧
        (sorted_data [e105p, e105]).Perm [e105p, e105]) ∧
      sorted_data [e105p, e105] = [e105, e105p] := by
  refine ⟨by decide, c5_roster_sort _ (by decide), by decide⟩

namespace Usamw

theorem pickId_not_mem {rng : Nat → Nat} :
    ∀ {k fuel : Nat} {used : List Nat} {mid k2 : Nat},
      pickId rng k fuel used = some (mid, k2) → mid ∉ used := by
  intro k fuel
  induction fuel generalizing k with
  | zero => intro used mid k2 h; exact absurd h (by simp [pickId])
  | succ n ih =>
    intro used mid k2 h
    rw [pickId] at h
    by_cases hm : draw rng k ∈ used
    · rw [if_pos hm] at h
      exact ih h
    · rw [if_neg hm] at h
      cases h
      exact hm

theorem parseLines_ids {rng : Nat → Nat} {fuel : Nat} :
    ∀ {lines : List Str} {k : Nat} {used : List Nat} {es : List MEntry},
      parseLines rng fuel lines k used = some es →
        (∀ e ∈ es, e.member_id ∉ used) ∧ (es.map MEntry.member_id).Nodup := by
  intro lines
  induction lines with
  | nil =>
    intro k used es h
    rw [parseLines] at h
    cases h
    exact ⟨by simp, by simp⟩
  | cons line rest ih =>
    intro k used es h
    rw [parseLines] at h
    by_cases hl : (pyStrip line).isEmpty = true
    · rw [if_pos hl] at h
      exact ih h
    · rw [if_neg hl] at h
      rcases hm : matchFixed (pyStrip line) with _ | ⟨category, weight, age, fullName, total, club⟩ <;>
        simp only [hm] at h
      · exact ih h
      · rcases hp : pickId rng k fuel used with _ | ⟨mid, k2⟩ <;> simp only [hp] at h
        · exact absurd h (by simp)
        · rcases hr : parseLines rng fuel rest k2 (mid :: used) with _ | es' <;>
            simp only [hr, Option.map_some', Option.map_none', Option.some.injEq] at h
          · exact absurd h (by simp)
          · subst h
            rcases ih hr with ⟨hnotin, hnodup⟩
            have hmid : mid ∉ used := pickId_not_mem hp
            constructor
            · intro e he
              rcases List.mem_cons.mp he with rfl | he
              · exact hmid
              · intro hin
                exact hnotin e he (List.mem_cons_of_mem _ hin)
            · rw [List.map_cons, List.nodup_cons]
              refine ⟨?_, hnodup⟩
              intro hin
              rcases List.mem_map.mp hin with ⟨e, he, heq⟩
              exact hnotin e he (heq ▸ List.mem_cons_self _ _)

end Usamw

/-- C1: whenever a run of the usamw assembler completes (for any input text,
any randomness, any redraw fuel), the synthetically assigned member ids of
the produced entries are pairwise distinct. -/
theorem c1_unique_ids (text : Str) (rng : Nat → Nat) (fuel : Nat) (es : List MEntry)
    (h : Usamw.parse_start_list rng fuel text = some es) :
    (es.map MEntry.member_id).Nodup :=
  (Usamw.parseLines_ids h).2

/-- Witness for C1: a concrete two-line run completes and its ids are distinct. -/
theorem c1_unique_ids_witness :
    (Usamw.parse_start_list (fun k => k) 1 c1Text).isSome = true ∧
      (((Usamw.parse_start_list (fun k => k) 1 c1Text).getD []).map MEntry.member_id).Nodup := by
  refine ⟨by decide, c1_unique_ids c1Text (fun k => k) 1 _ ?_⟩
  decide

/-- Counterexample for C2 as stated: the usamw parse (also cited by the
claim) emits an entry whose age 150 lies outside [1, 99]; the record is not
rejected. -/
theorem c2_age_counterexample :
    ((Usamw.parse_start_list (fun _ => 0) 1 c2Text).getD []).map MEntry.age = [150] ∧
      ¬(1 ≤ 150 ∧ 150 ≤ 99) := by
  exact ⟨by decide, by decide⟩

namespace UsawOther

theorem isAgeTok_bound {p : Str} (h : isAgeTok p = true) :
    1 ≤ natOfDigits p ∧ natOfDigits p ≤ 99 := by
  simp only [isAgeTok, Bool.and_eq_true, decide_eq_true_eq] at h
  exact ⟨h.1.2, h.2⟩

theorem findAge_bound {parts : List Str} {nidx nextIdx a : Nat}
    (h : findAge parts nidx nextIdx = some a) : 1 ≤ a ∧ a ≤ 99 := by
  unfold findAge at h
  rcases h1 : ((parts.drop (nidx - 2)).take (nidx - (nidx - 2))).find? isAgeTok
    with _ | p <;> simp only [h1] at h
  · rcases h2 : (parts.drop nextIdx).find? isAgeTok with _ | p <;> simp only [h2] at h
    · exact absurd h (by simp)
    · cases h
      exact isAgeTok_bound (List.find?_some h2)
  · cases h
    exact isAgeTok_bound (List.find?_some h1)

theorem uParseLine_entry_age {l : Str} {e : MEntry} (h : uParseLine l = .entry e) :
    1 ≤ e.age ∧ e.age ≤ 99 := by
  simp only [uParseLine] at h
  repeat' split at h
  all_goals
    first
      | (injection h with h2
         subst h2
         simp only [buildEntryU]
         exact findAge_bound (by assumption))
      | injection h

theorem parseLinesU_ages (lines : List Str) :
    ∀ e ∈ (parseLinesU lines).1, 1 ≤ e.age ∧ e.age ≤ 99 := by
  induction lines with
  | nil => intro e he; exact absurd he (by simp [parseLinesU])
  | cons l rest ih =>
    intro e he
    rw [parseLinesU] at he
    rcases ho : uParseLine l with _ | d | e0 <;> simp only [ho] at he
    · exact ih e he
    · exact ih e he
    · rcases List.mem_cons.mp he with rfl | he
      · exact uParseLine_entry_age ho
      · exact ih e he

end UsawOther

/-- C2 (amended): every entry produced by the heterogeneous-variant parser
(usaw_other_scraper.parse_start_list) has an age in [1, 99] — its age search
only accepts digit tokens in that range.  (As stated over both cited parsers
the claim fails: the fixed-grammar usamw variant accepts any digit run as
the age, see the counterexample.) -/
theorem c2_ages_in_range (text : Str) (e : MEntry)
    (he : e ∈ (UsawOther.parse_start_list text).1) : 1 ≤ e.age ∧ e.age ≤ 99 :=
  UsawOther.parseLinesU_ages _ e he

/-- Witness for the amended C2: a concrete heterogeneous-variant line parses
to an entry whose age is within range. -/
theorem c2_ages_in_range_witness :
    ((UsawOther.parse_start_list "75 123 SMITH, John 45 180 Barbell Club".data).1.map
        MEntry.age = [75]) ∧
      (1 ≤ ((UsawOther.parse_start_list "75 123 SMITH, John 45 180 Barbell Club".data).1.headD
          dEntry).age ∧
        ((UsawOther.parse_start_list "75 123 SMITH, John 45 180 Barbell Club".data).1.headD
          dEntry).age ≤ 99) :=
  ⟨by decide, c2_ages_in_range "75 123 SMITH, John 45 180 Barbell Club".data _ (by decide)⟩

theorem parseLinesU_append (xs ys : List Str) :
    UsawOther.parseLinesU (xs ++ ys) =
      ((UsawOther.parseLinesU xs).1 ++ (UsawOther.parseLinesU ys).1,
        (UsawOther.parseLinesU xs).2 ++ (UsawOther.parseLinesU ys).2) := by
  induction xs with
  | nil => simp [UsawOther.parseLinesU]
  | cons l rest ih =>
    rcases hu : UsawOther.uParseLine l with _ | d | e <;>
      simp [UsawOther.parseLinesU, hu, ih]

/-- C3: a candidate line of the heterogeneous variant that reaches the age
search (nonempty after stripping, not header/date/platform/bare-weight noise,
at least four tokens, an id token and a comma name token found) but in which
no token qualifies as an age is skipped with the "no age found" diagnostic,
contributes no entry, and parsing continues over the surrounding lines. -/
theorem c3_no_age_skip (pre post : List Str) (line : Str) (i nidx : Nat)
    (h1 : (pyStrip line).isEmpty = false)
    (h2 : (UsawOther.noiseSubs.any fun n => containsSub n (pyStrip line)) = false)
    (h3 : (UsawOther.dayPres.any fun d => List.isPrefixOf d (pyStrip line)) = false)
    (h4 : (UsawOther.platformSubs.any fun n => containsSub n (pyStrip line)) = false)
    (h5 : UsawOther.isWMDigits (pyStrip line) = false)
    (h6 : ¬ (splitWs (pyStrip line)).length < 4)
    (h7 : UsawOther.findIdxFrom isDigits (splitWs (pyStrip line))
      (UsawOther.uS1 (splitWs (pyStrip line))) = some i)
    (h8 : UsawOther.findIdxFrom (fun p => p.contains ',') (splitWs (pyStrip line))
      (i + 1) = some nidx)
    (h9 : UsawOther.findAge (splitWs (pyStrip line)) nidx
      (UsawOther.uNextIdx (splitWs (pyStrip line)) nidx) = none) :
    UsawOther.uParseLine line =
        .skip (UsawOther.mkSkip "no age found".data (pyStrip line)) ∧
      (UsawOther.parseLinesU (pre ++ line :: post)).1 =
        (UsawOther.parseLinesU (pre ++ post)).1 ∧
      UsawOther.mkSkip "no age found".data (pyStrip line) ∈
        (UsawOther.parseLinesU (pre ++ line :: post)).2 := by
  have e1 : ¬(List.isEmpty (pyStrip line) = true) := by simp [h1]
  have e2 : ¬((UsawOther.noiseSubs.any fun n => containsSub n (pyStrip line)) = true) := by
    simp only [h2]
    exact Bool.false_ne_true
  have e3 : ¬((UsawOther.dayPres.any fun d => List.isPrefixOf d (pyStrip line)) = true) := by
    simp only [h3]
    exact Bool.false_ne_true
  have e4 : ¬((UsawOther.platformSubs.any fun n => containsSub n (pyStrip line)) = true) := by
    simp only [h4]
    exact Bool.false_ne_true
  have e5 : ¬(UsawOther.isWMDigits (pyStrip line) = true) := by
    simp only [h5]
    exact Bool.false_ne_true
  have hline : UsawOther.uParseLine line =
      .skip (UsawOther.mkSkip "no age found".data (pyStrip line)) := by
    simp only [UsawOther.uParseLine, if_neg e1, if_neg e2, if_neg e3, if_neg e4, if_neg e5,
      if_neg h6, h7, h8, h9]
  refine ⟨hline, ?_, ?_⟩
  · rw [parseLinesU_append pre (line :: post), parseLinesU_append pre post]
    simp [UsawOther.parseLinesU, hline]
  · rw [parseLinesU_append pre (line :: post)]
    simp [UsawOther.parseLinesU, hline]

/-- Witness for C3: the concrete line `"500 123 SMITH, John Club"` has an id
and a comma name but no age token, is skipped with reason "no age found",
and the neighbouring good line still parses. -/
theorem c3_no_age_skip_witness :
    UsawOther.uParseLine "500 123 SMITH, John Club".data =
        .skip (UsawOther.mkSkip "no age found".data
          (pyStrip "500 123 SMITH, John Club".data)) ∧
      (UsawOther.parseLinesU
          ["500 123 SMITH, John Club".data, "75 124 DOE, Jane 45 180 Barbell Club".data]).1 =
        (UsawOther.parseLinesU ["75 124 DOE, Jane 45 180 Barbell Club".data]).1 ∧
      UsawOther.mkSkip "no age found".data (pyStrip "500 123 SMITH, John Club".data) ∈
        (UsawOther.parseLinesU
          ["500 123 SMITH, John Club".data, "75 124 DOE, Jane 45 180 Barbell Club".data]).2 :=
  c3_no_age_skip [] ["75 124 DOE, Jane 45 180 Barbell Club".data]
    "500 123 SMITH, John Club".data 1 2 (by decide) (by decide) (by decide) (by decide)
    (by decide) (by decide) (by decide) (by decide) (by decide)

set_option maxHeartbeats 1600000 in
theorem pParseLine_some_inv {l : Str} {e : Pdf.PEntry} (h : Pdf.pParseLine l = some e) :
    (Pdf.pLot l).isEmpty = false ∧
      ∃ si b c, Pdf.searchFirst Pdf.stateAt (Pdf.pRest0 l) 0 = some (si, (b, c)) ∧
        (Pdf.pAge l si).isEmpty = false ∧
        ∃ gi g, Pdf.searchFirst Pdf.genderAt (Pdf.pRest2 l si) 0 = some (gi, g) ∧
          ∃ ri grp len0,
            Pdf.searchFirst Pdf.groupAt (Pdf.pRest3 l si gi) 0 = some (ri, (grp, len0)) := by
  rw [Pdf.pParseLine] at h
  repeat' split at h
  all_goals try exact Option.noConfusion h
  rename_i hlot x1 si b c hst hage x2 gi g hgen x3 ri grp len0 hgrp x4 t sp dy tm1 tm2 tms hsplit
  refine ⟨?_, si, b, c, hst, ?_, gi, g, hgen, ri, grp, len0, hgrp⟩
  · rw [← Bool.not_eq_true]
    exact hlot
  · rw [← Bool.not_eq_true]
    exact hage

theorem searchFirst_leftmost {α : Type} (f : Str → Option α) :
    ∀ (l : Str) (k i : Nat) (x : α), Pdf.searchFirst f l k = some (i, x) →
      k ≤ i ∧ f (l.drop (i - k)) = some x ∧ ∀ j, j < i - k → f (l.drop j) = none := by
  intro l
  induction l with
  | nil => intro k i x h; exact absurd h (by simp [Pdf.searchFirst])
  | cons c rest ih =>
    intro k i x h
    rw [Pdf.searchFirst] at h
    rcases hf : f (c :: rest) with _ | y <;> simp only [hf] at h
    · rcases ih (k + 1) i x h with ⟨hki, hdrop, hnone⟩
      refine ⟨by omega, ?_, ?_⟩
      · have hik : i - k = (i - (k + 1)) + 1 := by omega
        rw [hik]
        exact hdrop
      · intro j hj
        cases j with
        | zero => simpa using hf
        | succ j' =>
          have hd : (c :: rest).drop (j' + 1) = rest.drop j' := rfl
          rw [hd]
          refine hnone j' ?_
          omega
    · rcases h with ⟨rfl, rfl⟩
      refine ⟨Nat.le_refl _, by simpa using hf, ?_⟩
      intro j hj
      exact absurd hj (by omega)

/-- C4: for the tabular-anchor variant, (1-3) each anchor search (state code,
gender token, group letter) locates the *first* match scanning left-to-right
from the previous anchor's end (the search runs on the sliced remainder, so
position 0 is that end); (4-7) failure of the state, age, gender or group
anchor search makes the line parse to nothing; and (8) a line that parses to
nothing is skipped while the remaining lines still produce their entries. -/
theorem c4_tabular_anchors :
    (∀ (l : Str) (i : Nat) (x : Char × Char),
        Pdf.searchFirst Pdf.stateAt l 0 = some (i, x) →
        Pdf.stateAt (l.drop i) = some x ∧ ∀ j, j < i → Pdf.stateAt (l.drop j) = none) ∧
    (∀ (l : Str) (i : Nat) (x : Char),
        Pdf.searchFirst Pdf.genderAt l 0 = some (i, x) →
        Pdf.genderAt (l.drop i) = some x ∧ ∀ j, j < i → Pdf.genderAt (l.drop j) = none) ∧
    (∀ (l : Str) (i : Nat) (x : Char × Nat),
        Pdf.searchFirst Pdf.groupAt l 0 = some (i, x) →
        Pdf.groupAt (l.drop i) = some x ∧ ∀ j, j < i → Pdf.groupAt (l.drop j) = none) ∧
    (∀ l : Str, Pdf.searchFirst Pdf.stateAt (Pdf.pRest0 l) 0 = none →
        Pdf.pParseLine l = none) ∧
    (∀ (l : Str) (si : Nat) (x : Char × Char),
        Pdf.searchFirst Pdf.stateAt (Pdf.pRest0 l) 0 = some (si, x) →
        (Pdf.pAge l si).isEmpty = true → Pdf.pParseLine l = none) ∧
    (∀ (l : Str) (si : Nat) (x : Char × Char),
        Pdf.searchFirst Pdf.stateAt (Pdf.pRest0 l) 0 = some (si, x) →
        Pdf.searchFirst Pdf.genderAt (Pdf.pRest2 l si) 0 = none →
        Pdf.pParseLine l = none) ∧
    (∀ (l : Str) (si gi : Nat) (x : Char × Char) (g : Char),
        Pdf.searchFirst Pdf.stateAt (Pdf.pRest0 l) 0 = some (si, x) →
        Pdf.searchFirst Pdf.genderAt (Pdf.pRest2 l si) 0 = some (gi, g) →
        Pdf.searchFirst Pdf.groupAt (Pdf.pRest3 l si gi) 0 = none →
        Pdf.pParseLine l = none) ∧
    (∀ (l : Str) (pre post : List Str), Pdf.pParseLine (pyStrip l) = none →
        Pdf.pParseLines true (pre ++ l :: post) = Pdf.pParseLines true (pre ++ post)) := by
  have hleft : ∀ {α : Type} (f : Str → Option α) (l : Str) (i : Nat) (x : α),
      Pdf.searchFirst f l 0 = some (i, x) →
      f (l.drop i) = some x ∧ ∀ j, j < i → f (l.drop j) = none := by
    intro α f l i x h
    rcases searchFirst_leftmost f l 0 i x h with ⟨-, hdrop, hnone⟩
    rw [Nat.sub_zero] at hdrop hnone
    exact ⟨hdrop, hnone⟩
  refine ⟨fun l i x h => hleft Pdf.stateAt l i x h,
    fun l i x h => hleft Pdf.genderAt l i x h,
    fun l i x h => hleft Pdf.groupAt l i x h, ?_, ?_, ?_, ?_, ?_⟩
  · intro l hs
    rcases hp : Pdf.pParseLine l with _ | e
    · rfl
    · exfalso
      rcases pParseLine_some_inv hp with ⟨-, si, b, c, hst, -⟩
      rw [hs] at hst
      exact Option.noConfusion hst
  · intro l si x hs hage
    rcases hp : Pdf.pParseLine l with _ | e
    · rfl
    · exfalso
      rcases pParseLine_some_inv hp with ⟨-, si', b, c, hst, hage', -⟩
      have hsi : si' = si := by
        have h2 := hst.symm.trans hs
        simp only [Option.some.injEq, Prod.mk.injEq] at h2
        exact h2.1
      rw [hsi, hage] at hage'
      exact Bool.noConfusion hage'
  · intro l si x hs hg
    rcases hp : Pdf.pParseLine l with _ | e
    · rfl
    · exfalso
      rcases pParseLine_some_inv hp with ⟨-, si', b, c, hst, -, gi, g, hgen, -⟩
      have hsi : si' = si := by
        have h2 := hst.symm.trans hs
        simp only [Option.some.injEq, Prod.mk.injEq] at h2
        exact h2.1
      rw [hsi, hg] at hgen
      exact Option.noConfusion hgen
  · intro l si gi x g hs hgen hgrp
    rcases hp : Pdf.pParseLine l with _ | e
    · rfl
    · exfalso
      rcases pParseLine_some_inv hp with
        ⟨-, si', b, c, hst, -, gi', g', hgen', ri, grp, len0, hgrp'⟩
      have hsi : si' = si := by
        have h2 := hst.symm.trans hs
        simp only [Option.some.injEq, Prod.mk.injEq] at h2
        exact h2.1
      rw [hsi] at hgen' hgrp'
      have hgi : gi' = gi := by
        have h2 := hgen'.symm.trans hgen
        simp only [Option.some.injEq, Prod.mk.injEq] at h2
        exact h2.1
      rw [hgi, hgrp] at hgrp'
      exact Option.noConfusion hgrp'
  · intro l pre post hskip
    induction pre with
    | nil =>
      simp only [List.nil_append, Pdf.pParseLines]
      by_cases hb : (pyStrip l).isEmpty = true
      · simp only [if_pos hb]
      · simp only [if_neg hb]
        by_cases hh : containsSub Pdf.headerP (pyStrip l) = true
        · simp only [if_pos hh]
        · simp only [if_neg hh]
          by_cases hp : containsSub Pdf.presentedP (pyStrip l) = true
          · simp only [if_pos hp]
          · simp only [if_neg hp, Bool.not_true, if_neg Bool.false_ne_true, hskip]
    | cons p pre' ih =>
      simp only [List.cons_append, Pdf.pParseLines]
      by_cases hb : (pyStrip p).isEmpty = true
      · simp only [if_pos hb]
        exact ih
      · simp only [if_neg hb]
        by_cases hh : containsSub Pdf.headerP (pyStrip p) = true
        · simp only [if_pos hh]
          exact ih
        · simp only [if_neg hh]
          by_cases hp : containsSub Pdf.presentedP (pyStrip p) = true
          · simp only [if_pos hp]
            exact ih
          · simp only [if_neg hp, Bool.not_true, if_neg Bool.false_ne_true]
            rcases he : Pdf.pParseLine (pyStrip p) with _ | e <;> simp only [he]
            · exact ih
            · exact congrArg (List.cons e) ih

/-- Witness for C4: on a concrete remainder the state-anchor search returns
the first match (position 10, code "CA") and no earlier position matches;
a line whose anchors fail is skipped while the neighbouring line's entry is
still produced; and a line with all four anchors but only four tokens after
the group anchor (line 116 requires at least five) is likewise skipped. -/
theorem c4_tabular_anchors_witness :
    Pdf.searchFirst Pdf.stateAt
        "John Smith CA 34 Power Club M M 35 105 / A 250 1RED Sat 9:00 AM".data 0 =
      some (10, ('C', 'A')) ∧
    Pdf.stateAt
        ("John Smith CA 34 Power Club M M 35 105 / A 250 1RED Sat 9:00 AM".data.drop 10) =
      some ('C', 'A') ∧
    Pdf.stateAt
        ("John Smith CA 34 Power Club M M 35 105 / A 250 1RED Sat 9:00 AM".data.drop 2) =
      none ∧
    Pdf.pParseLines true
        ["7 NO ANCHORS HERE".data,
          "12 John Smith CA 34 Power Club M M 35 105 / A 250 1RED Sat 9:00 AM".data] =
      Pdf.pParseLines true
        ["12 John Smith CA 34 Power Club M M 35 105 / A 250 1RED Sat 9:00 AM".data] ∧
    (Pdf.pParseLines true
        ["12 John Smith CA 34 Power Club M M 35 105 / A 250 1RED Sat 9:00 AM".data]).length =
      1 ∧
    Pdf.pParseLines true
        ["12 Jane Doe OH 41 Iron Club W W 45 105 / B 180 2BLUE Sun 9:00".data,
          "12 John Smith CA 34 Power Club M M 35 105 / A 250 1RED Sat 9:00 AM".data] =
      Pdf.pParseLines true
        ["12 John Smith CA 34 Power Club M M 35 105 / A 250 1RED Sat 9:00 AM".data] := by
  refine ⟨by decide,
    (c4_tabular_anchors.1
      "John Smith CA 34 Power Club M M 35 105 / A 250 1RED Sat 9:00 AM".data 10 ('C', 'A')
      (by decide)).1,
    (c4_tabular_anchors.1
      "John Smith CA 34 Power Club M M 35 105 / A 250 1RED Sat 9:00 AM".data 10 ('C', 'A')
      (by decide)).2 2 (by decide),
    c4_tabular_anchors.2.2.2.2.2.2.2 "7 NO ANCHORS HERE".data []
      ["12 John Smith CA 34 Power Club M M 35 105 / A 250 1RED Sat 9:00 AM".data] (by decide),
    by decide,
    c4_tabular_anchors.2.2.2.2.2.2.2
      "12 Jane Doe OH 41 Iron Club W W 45 105 / B 180 2BLUE Sun 9:00".data []
      ["12 John Smith CA 34 Power Club M M 35 105 / A 250 1RED Sat 9:00 AM".data] (by decide)⟩

theorem drop_length_takeWhile (p : Char → Bool) (l : Str) :
    l.drop (l.takeWhile p).length = l.dropWhile p := by
  induction l with
  | nil => rfl
  | cons c cs ih =>
    by_cases hc : p c = true
    · simp only [List.takeWhile_cons, List.dropWhile_cons, hc, if_true, List.length_cons,
        List.drop_succ_cons]
      exact ih
    · simp [List.takeWhile_cons, List.dropWhile_cons, hc]

theorem space_not_MW {c : Char} (h : pySpace c = true) :
    (decide (c = 'M') || decide (c = 'W')) = false := by
  by_cases hM : c = 'M'
  · subst hM
    exact absurd h (by decide)
  · by_cases hW : c = 'W'
    · subst hW
      exact absurd h (by decide)
    · simp [hM, hW]

theorem digit_not_MW {c : Char} (h : c.isDigit = true) :
    (decide (c = 'M') || decide (c = 'W')) = false := by
  by_cases hM : c = 'M'
  · subst hM
    exact absurd h (by decide)
  · by_cases hW : c = 'W'
    · subst hW
      exact absurd h (by decide)
    · simp [hM, hW]

theorem wcAt_cons_none {c : Char} {cs : Str}
    (h : (decide (c = 'M') || decide (c = 'W')) = false) : Pdf.wcAt (c :: cs) = none := by
  simp only [Pdf.wcAt]
  rw [if_neg]
  simp [h]

theorem wcAt_some_decomp {l : Str} {g : Char} {ws d : Str}
    (h : Pdf.wcAt l = some (g, ws, d)) :
    (g = 'M' ∨ g = 'W') ∧ ws ≠ [] ∧ (∀ c ∈ ws, pySpace c = true) ∧ d ≠ [] ∧
      (∀ c ∈ d, c.isDigit = true) ∧ ∃ rest2, l = g :: (ws ++ (d ++ rest2)) := by
  match l with
  | [] => exact absurd h (by simp [Pdf.wcAt])
  | g' :: rest =>
    rw [Pdf.wcAt] at h
    split at h
    case isFalse => exact Option.noConfusion h
    case isTrue hMW =>
      split at h
      case isTrue => exact Option.noConfusion h
      case isFalse hws =>
        split at h
        case isTrue => exact Option.noConfusion h
        case isFalse hd =>
          simp only [Option.some.injEq, Prod.mk.injEq] at h
          obtain ⟨h1, h2, h3⟩ := h
          subst h1
          subst h2
          subst h3
          refine ⟨by simpa using hMW, by simpa [List.isEmpty_iff] using hws,
            fun c hc => List.mem_takeWhile_imp hc, by simpa [List.isEmpty_iff] using hd,
            fun c hc => List.mem_takeWhile_imp hc,
            (rest.drop (rest.takeWhile pySpace).length).drop
              (((rest.drop (rest.takeWhile pySpace).length).takeWhile Char.isDigit).length), ?_⟩
          have e1 : rest.takeWhile pySpace ++ rest.drop (rest.takeWhile pySpace).length = rest := by
            rw [drop_length_takeWhile]
            exact List.takeWhile_append_dropWhile pySpace rest
          have e2 :
              (rest.drop (rest.takeWhile pySpace).length).takeWhile Char.isDigit ++
                (rest.drop (rest.takeWhile pySpace).length).drop
                  (((rest.drop (rest.takeWhile pySpace).length).takeWhile Char.isDigit).length) =
              rest.drop (rest.takeWhile pySpace).length := by
            rw [drop_length_takeWhile Char.isDigit]
            exact List.takeWhile_append_dropWhile Char.isDigit _
          conv_lhs => rw [← e1, ← e2]

theorem not_MW_of_mem {x : Char} {ws d : Str} (hws : ∀ c ∈ ws, pySpace c = true)
    (hd : ∀ c ∈ d, c.isDigit = true) (hx : x ∈ ws ++ d) :
    (decide (x = 'M') || decide (x = 'W')) = false := by
  rcases List.mem_append.mp hx with h | h
  · exact space_not_MW (hws x h)
  · exact digit_not_MW (hd x h)

theorem wcAt_digits_none :
    ∀ (d rest2 : Str) (k : Nat), (∀ c ∈ d, c.isDigit = true) → k < d.length →
      Pdf.wcAt ((d ++ rest2).drop k) = none := by
  intro d
  induction d with
  | nil =>
    intro rest2 k _ hk
    exact absurd hk (by simp)
  | cons x d' ih =>
    intro rest2 k hd hk
    cases k with
    | zero =>
      rw [List.cons_append, List.drop_zero]
      exact wcAt_cons_none (digit_not_MW (hd x (by simp)))
    | succ k' =>
      rw [List.cons_append, List.drop_succ_cons]
      exact ih rest2 k' (fun c hc => hd c (by simp [hc])) (by simpa using hk)

theorem wcAt_inside_none :
    ∀ (ws d rest2 : Str) (k : Nat), (∀ c ∈ ws, pySpace c = true) →
      (∀ c ∈ d, c.isDigit = true) → k < ws.length + d.length →
      Pdf.wcAt ((ws ++ (d ++ rest2)).drop k) = none := by
  intro ws
  induction ws with
  | nil =>
    intro d rest2 k _ hd hk
    rw [List.nil_append]
    exact wcAt_digits_none d rest2 k hd (by simpa using hk)
  | cons w ws' ih =>
    intro d rest2 k hws hd hk
    cases k with
    | zero =>
      rw [List.cons_append, List.drop_zero]
      exact wcAt_cons_none (space_not_MW (hws w (by simp)))
    | succ k' =>
      rw [List.cons_append, List.drop_succ_cons]
      refine ih d rest2 k' (fun c hc => hws c (by simp [hc])) hd ?_
      simp only [List.length_cons] at hk
      omega

theorem findIterWCAux_sound :
    ∀ (fuel : Nat) (l : Str) (pos : Nat), l.length ≤ fuel →
      (∀ m ∈ Pdf.findIterWCAux fuel l pos, pos ≤ m.1 ∧
        ∃ ws, Pdf.wcAt (l.drop (m.1 - pos)) = some (m.2.1, ws, m.2.2)) ∧
      ((Pdf.findIterWCAux fuel l pos).map (fun m => m.1)).Pairwise (· < ·) := by
  intro fuel
  induction fuel with
  | zero =>
    intro l pos _
    simp [Pdf.findIterWCAux]
  | succ n ih =>
    intro l pos hlen
    match l with
    | [] => simp [Pdf.findIterWCAux]
    | c :: cs =>
      rw [Pdf.findIterWCAux]
      rcases hw : Pdf.wcAt (c :: cs) with _ | ⟨g, ws, d⟩ <;> simp only [hw]
      · have hcs : cs.length ≤ n := by
          simp only [List.length_cons] at hlen
          omega
        obtain ⟨hm, hp⟩ := ih cs (pos + 1) hcs
        refine ⟨?_, hp⟩
        intro m hmem
        obtain ⟨hge, ws', hws'⟩ := hm m hmem
        refine ⟨by omega, ws', ?_⟩
        have harith : m.1 - pos = (m.1 - (pos + 1)) + 1 := by omega
        rw [harith, List.drop_succ_cons]
        exact hws'
      · have hlen2 : (cs.drop (ws.length + d.length)).length ≤ n := by
          simp only [List.length_cons] at hlen
          simp only [List.length_drop]
          omega
        obtain ⟨hm, hp⟩ := ih (cs.drop (ws.length + d.length))
          (pos + 1 + ws.length + d.length) hlen2
        constructor
        · intro m hmem
          rcases List.mem_cons.mp hmem with rfl | hmem
          · refine ⟨Nat.le_refl _, ws, ?_⟩
            simpa using hw
          · obtain ⟨hge, ws', hws'⟩ := hm m hmem
            refine ⟨by omega, ws', ?_⟩
            have harith : m.1 - pos =
                ((ws.length + d.length) + (m.1 - (pos + 1 + ws.length + d.length))) + 1 := by
              omega
            rw [harith, List.drop_succ_cons, ← List.drop_drop]
            exact hws'
        · rw [List.map_cons, List.pairwise_cons]
          refine ⟨?_, hp⟩
          intro y hy
          rcases List.mem_map.mp hy with ⟨m, hmem, rfl⟩
          have := (hm m hmem).1
          simp only
          omega

theorem findIterWCAux_complete :
    ∀ (fuel : Nat) (l : Str) (pos : Nat), l.length ≤ fuel →
      ∀ j, (Pdf.wcAt (l.drop j)).isSome = true →
        (pos + j) ∈ (Pdf.findIterWCAux fuel l pos).map (fun m => m.1) := by
  intro fuel
  induction fuel with
  | zero =>
    intro l pos hlen j hj
    have hnil : l = [] := List.length_eq_zero.mp (Nat.le_zero.mp hlen)
    subst hnil
    rw [List.drop_nil] at hj
    exact absurd hj (by simp [Pdf.wcAt])
  | succ n ih =>
    intro l pos hlen j hj
    match l with
    | [] =>
      rw [List.drop_nil] at hj
      exact absurd hj (by simp [Pdf.wcAt])
    | c :: cs =>
      rw [Pdf.findIterWCAux]
      rcases hw : Pdf.wcAt (c :: cs) with _ | ⟨g, ws, d⟩ <;> simp only [hw]
      · cases j with
        | zero =>
          rw [List.drop_zero, hw] at hj
          exact absurd hj (by simp)
        | succ j' =>
          have hcs : cs.length ≤ n := by
            simp only [List.length_cons] at hlen
            omega
          have hj' : (Pdf.wcAt (cs.drop j')).isSome = true := hj
          have hmem := ih cs (pos + 1) hcs j' hj'
          have harith : pos + (j' + 1) = (pos + 1) + j' := by omega
          rw [harith]
          exact hmem
      · obtain ⟨hMW, hwsne, hwsall, hdne, hdall, rest2, hdecomp⟩ := wcAt_some_decomp hw
        by_cases hj0 : j = 0
        · subst hj0
          simp
        · by_cases hjlt : j < 1 + ws.length + d.length
          · exfalso
            have hjj : j = (j - 1) + 1 := by omega
            have hstep : (c :: cs).drop j = (ws ++ (d ++ rest2)).drop (j - 1) := by
              conv_lhs => rw [hdecomp, hjj]
              rw [List.drop_succ_cons]
            have hnone := wcAt_inside_none ws d rest2 (j - 1) hwsall hdall (by omega)
            rw [hstep, hnone] at hj
            exact absurd hj (by simp)
          · have hlen2 : (cs.drop (ws.length + d.length)).length ≤ n := by
              simp only [List.length_cons] at hlen
              simp only [List.length_drop]
              omega
            have hj2 : (Pdf.wcAt ((cs.drop (ws.length + d.length)).drop
                (j - (1 + ws.length + d.length)))).isSome = true := by
              rw [List.drop_drop]
              have harith : (ws.length + d.length) + (j - (1 + ws.length + d.length)) =
                  j - 1 := by omega
              rw [harith]
              have hjj : j = (j - 1) + 1 := by omega
              rw [hjj] at hj
              rw [List.drop_succ_cons] at hj
              exact hj
            have hmem := ih (cs.drop (ws.length + d.length))
              (pos + 1 + ws.length + d.length) hlen2 (j - (1 + ws.length + d.length)) hj2
            have harith2 : (pos + 1 + ws.length + d.length) +
                (j - (1 + ws.length + d.length)) = pos + j := by omega
            rw [harith2] at hmem
            simp only [List.map_cons]
            exact List.mem_cons_of_mem _ hmem

/-- C8: weight-class tag extraction emits exactly one tag per occurrence of
extract_weight_class's pattern (`[MW]` then whitespace then digits): (1) each
tag is the concatenation of the captured gender letter and digits of a match;
(2) every listed match really occurs at its recorded position; (3) the match
positions are strictly increasing, so tags come in order of appearance; and
(4) every position where the pattern matches is listed (matches cannot
overlap, since a match's interior holds only whitespace and digits). -/
theorem c8_weight_class_tags :
    (∀ s : Str, Pdf.extract_weight_class s =
        (Pdf.findIterWC s).map (fun m => m.2.1 :: m.2.2)) ∧
    (∀ (s : Str) (m : Nat × Char × Str), m ∈ Pdf.findIterWC s →
        ∃ ws, Pdf.wcAt (s.drop m.1) = some (m.2.1, ws, m.2.2)) ∧
    (∀ s : Str, ((Pdf.findIterWC s).map (fun m => m.1)).Pairwise (· < ·)) ∧
    (∀ (s : Str) (j : Nat), (Pdf.wcAt (s.drop j)).isSome = true →
        j ∈ (Pdf.findIterWC s).map (fun m => m.1)) := by
  refine ⟨fun s => rfl, ?_, ?_, ?_⟩
  · intro s m hm
    have h := ((findIterWCAux_sound s.length s 0 (Nat.le_refl _)).1 m hm).2
    simpa using h
  · intro s
    exact (findIterWCAux_sound s.length s 0 (Nat.le_refl _)).2
  · intro s j hj
    have h := findIterWCAux_complete s.length s 0 (Nat.le_refl _) j hj
    simpa using h

/-- Witness for C8 at the spec's example categories text. -/
theorem c8_weight_class_tags_witness :
    Pdf.extract_weight_class "M 70 / M 75".data = ["M70".data, "M75".data] ∧
      (∃ ws, Pdf.wcAt ("M 70 / M 75".data.drop 0) = some ('M', ws, "70".data)) ∧
      7 ∈ (Pdf.findIterWC "M 70 / M 75".data).map (fun m => m.1) := by
  refine ⟨by decide,
    c8_weight_class_tags.2.1 "M 70 / M 75".data (0, 'M', "70".data) (by decide),
    c8_weight_class_tags.2.2.2 "M 70 / M 75".data 7 (by decide)⟩

theorem enrichStep_frame {h : Pdf.Heap} {a : Nat} {h1 : Pdf.Heap} {na : Nat}
    (he : Pdf.enrichStep h a = some (h1, na)) :
    na = h.length ∧ h.length < h1.length ∧ ∀ b, b < h.length → h1[b]? = h[b]? := by
  rw [Pdf.enrichStep] at he
  have happ : ∀ b, b < h.length → (h ++ [h.getD a []])[b]? = h[b]? := by
    intro b hb
    rw [List.getElem?_append]
    rw [if_pos hb]
  split at he
  · exact Option.noConfusion he
  · simp only [Option.some.injEq, Prod.mk.injEq] at he
    obtain ⟨rfl, rfl⟩ := he
    exact ⟨rfl, by simp, happ⟩
  · rename_i cat heq
    simp only [Option.some.injEq, Prod.mk.injEq] at he
    obtain ⟨rfl, rfl⟩ := he
    refine ⟨rfl, ?_, ?_⟩
    · by_cases hw : (Pdf.extract_weight_class cat).isEmpty = true <;>
        by_cases hg : (Pdf.extract_age_group cat).isEmpty = true <;>
        simp [hw, hg, List.length_set]
    · intro b hb
      have hne : h.length ≠ b := by omega
      by_cases hw : (Pdf.extract_weight_class cat).isEmpty = true <;>
        by_cases hg : (Pdf.extract_age_group cat).isEmpty = true
      · rw [if_pos hg, if_pos hw]
        exact happ b hb
      · rw [if_neg hg, if_pos hw, List.getElem?_set_ne hne]
        exact happ b hb
      · rw [if_pos hg, if_neg hw, List.getElem?_set_ne hne]
        exact happ b hb
      · rw [if_neg hg, if_neg hw, List.getElem?_set_ne hne, List.getElem?_set_ne hne]
        exact happ b hb

/-- C10: enrichment does not touch the input records — after a completed run
every original heap address still holds exactly its old dictionary, the heap
only grew, and every returned (enriched) record lives at a fresh address. -/
theorem c10_enrich_frame (h : Pdf.Heap) (addrs : List Nat) (h2 : Pdf.Heap)
    (out : List Nat) (he : Pdf.enrich_data h addrs = some (h2, out)) :
    (∀ a, a < h.length → h2[a]? = h[a]?) ∧ h.length ≤ h2.length ∧
      ∀ a ∈ out, h.length ≤ a ∧ a < h2.length := by
  induction addrs generalizing h h2 out with
  | nil =>
    rw [Pdf.enrich_data] at he
    simp only [Option.some.injEq, Prod.mk.injEq] at he
    obtain ⟨rfl, rfl⟩ := he
    exact ⟨fun a _ => rfl, Nat.le_refl _, by simp⟩
  | cons a rest ih =>
    rw [Pdf.enrich_data] at he
    rcases hs : Pdf.enrichStep h a with _ | ⟨hmid, na⟩ <;> simp only [hs] at he
    · exact Option.noConfusion he
    · rcases hr : Pdf.enrich_data hmid rest with _ | ⟨hfin, nas⟩ <;> simp only [hr] at he
      · exact Option.noConfusion he
      · simp only [Option.some.injEq, Prod.mk.injEq] at he
        obtain ⟨rfl, rfl⟩ := he
        obtain ⟨hna, hgrow, hframe⟩ := enrichStep_frame hs
        obtain ⟨ihframe, ihgrow, ihmem⟩ := ih hmid hfin nas hr
        refine ⟨?_, by omega, ?_⟩
        · intro b hb
          rw [ihframe b (by omega)]
          exact hframe b hb
        · intro x hx
          rcases List.mem_cons.mp hx with rfl | hx
          · constructor
            · omega
            · omega
          · have := ihmem x hx
            constructor
            · omega
            · omega

/-- Witness for C10: a concrete one-entry run succeeds, the original record
at address 0 is untouched, and the returned enriched record sits at the
fresh address 1. -/
theorem c10_enrich_frame_witness :
    (Pdf.enrich_data [c10Dict] [0]).isSome = true ∧
      ((Pdf.enrich_data [c10Dict] [0]).getD ([], [])).1[0]? = [c10Dict][0]? ∧
      (1 ≤ (1 : Nat) ∧
        1 < ((Pdf.enrich_data [c10Dict] [0]).getD ([], [])).1.length) := by
  have hyp : Pdf.enrich_data [c10Dict] [0] =
      some ((Pdf.enrich_data [c10Dict] [0]).getD ([], [])) := by decide
  have H := c10_enrich_frame [c10Dict] [0] _ _ hyp
  refine ⟨by decide, H.1 0 (by decide), ?_⟩
  have := H.2.2 1 (by decide)
  simpa using this

-- ### strip algebra
theorem lstrip_cons_of_space {c : Char} (h : pySpace c = true) (l : Str) :
    lstrip (c :: l) = lstrip l := by
  simp [lstrip, List.dropWhile_cons, h]

theorem lstrip_cons_of_not {c : Char} (h : pySpace c = false) (l : Str) :
    lstrip (c :: l) = c :: l := by
  simp [lstrip, List.dropWhile_cons, h]

theorem lstrip_idem (l : Str) : lstrip (lstrip l) = lstrip l :=
  List.dropWhile_idempotent pySpace l

theorem reverse_rstrip (l : Str) : (rstrip l).reverse = lstrip l.reverse := by
  simp [rstrip]

theorem rstrip_cons (c : Char) (l : Str) :
    rstrip (c :: l) =
      if rstrip l = [] then (if pySpace c then [] else [c]) else c :: rstrip l := by
  have hrl : rstrip l = [] ↔ l.reverse.dropWhile pySpace = [] := by
    simp [rstrip, lstrip]
  by_cases h : l.reverse.dropWhile pySpace = []
  · rw [if_pos (hrl.mpr h)]
    by_cases hc : pySpace c = true <;>
      simp [rstrip, lstrip, List.dropWhile_append, h, List.dropWhile_cons, hc]
  · rw [if_neg (fun hh => h (hrl.mp hh))]
    simp [rstrip, lstrip, List.dropWhile_append, h, List.dropWhile_cons]

theorem rstrip_eq_nil (l : Str) (h : rstrip l = []) : lstrip l = [] := by
  have h1 : l.reverse.dropWhile pySpace = [] := by
    have := congrArg List.reverse h
    simpa [rstrip, lstrip] using this
  have h2 : ∀ x ∈ l.reverse, pySpace x = true := List.dropWhile_eq_nil_iff.mp h1
  exact List.dropWhile_eq_nil_iff.mpr (fun x hx => h2 x (List.mem_reverse.mpr hx))

theorem lstrip_rstrip_comm (l : Str) : lstrip (rstrip l) = rstrip (lstrip l) := by
  induction l with
  | nil => rfl
  | cons c cs ih =>
    cases hc : pySpace c with
    | true =>
      rw [rstrip_cons, lstrip_cons_of_space hc]
      by_cases h0 : rstrip cs = []
      · rw [if_pos h0, if_pos hc, rstrip_eq_nil cs h0]
        rfl
      · rw [if_neg h0, lstrip_cons_of_space hc, ih]
    | false =>
      have hx : ¬(pySpace c = true) := by simp [hc]
      rw [lstrip_cons_of_not hc, rstrip_cons]
      by_cases h0 : rstrip cs = []
      · rw [if_pos h0, if_neg hx]
        exact lstrip_cons_of_not hc []
      · rw [if_neg h0]
        exact lstrip_cons_of_not hc (rstrip cs)

theorem rstrip_idem (l : Str) : rstrip (rstrip l) = rstrip l := by
  show (lstrip (rstrip l).reverse).reverse = rstrip l
  rw [reverse_rstrip, lstrip_idem]
  rfl

theorem pyStrip_eq_lr (l : Str) : pyStrip l = lstrip (rstrip l) :=
  (lstrip_rstrip_comm l).symm

theorem pyStrip_idem (l : Str) : pyStrip (pyStrip l) = pyStrip l := by
  show rstrip (lstrip (rstrip (lstrip l))) = rstrip (lstrip l)
  rw [lstrip_rstrip_comm, lstrip_idem, rstrip_idem]

theorem pyStrip_cons_of_space {c : Char} (h : pySpace c = true) (l : Str) :
    pyStrip (c :: l) = pyStrip l := by
  show rstrip (lstrip (c :: l)) = rstrip (lstrip l)
  rw [lstrip_cons_of_space h]

theorem lstrip_suffix (l : Str) : lstrip l <:+ l :=
  List.dropWhile_suffix pySpace

theorem rstrip_prefixOf (l : Str) : rstrip l <+: l := by
  obtain ⟨pre, hp⟩ := lstrip_suffix l.reverse
  refine ⟨pre.reverse, ?_⟩
  show (lstrip l.reverse).reverse ++ pre.reverse = l
  rw [← List.reverse_append, hp, List.reverse_reverse]

theorem pyStrip_infixOf (l : Str) : pyStrip l <:+: l :=
  ((rstrip_prefixOf (lstrip l)).isInfix).trans ((lstrip_suffix l).isInfix)

theorem pyStrip_reverse (l : Str) : pyStrip l.reverse = (pyStrip l).reverse := by
  show rstrip (lstrip l.reverse) = (rstrip (lstrip l)).reverse
  rw [← reverse_rstrip l]
  show (lstrip (rstrip l).reverse.reverse).reverse = (rstrip (lstrip l)).reverse
  rw [List.reverse_reverse, lstrip_rstrip_comm]

-- ### splitChar structure
theorem splitChar_cons_self (sep : Char) (l : Str) :
    splitChar sep (sep :: l) = [] :: splitChar sep l := by
  simp [splitChar]

theorem splitChar_head_prefixOf (sep : Char) (l : Str) :
    ∃ p ps, splitChar sep l = p :: ps ∧ p <+: l := by
  induction l with
  | nil => exact ⟨[], [], rfl, List.nil_prefix⟩
  | cons c cs ih =>
    by_cases hc : c = sep
    · exact ⟨[], splitChar sep cs, by simp [splitChar, hc], List.nil_prefix⟩
    · obtain ⟨p, ps, h, hp⟩ := ih
      exact ⟨c :: p, ps, by simp [splitChar, hc, h],
        List.cons_prefix_cons.mpr ⟨rfl, hp⟩⟩

theorem splitChar_cons_ne (sep c : Char) (hc : ¬(c = sep)) {l p : Str}
    {ps : List Str} (h : splitChar sep l = p :: ps) :
    splitChar sep (c :: l) = (c :: p) :: ps := by
  simp [splitChar, hc, h]

theorem splitChar_mem_infixOf (sep : Char) (l : Str) :
    ∀ x ∈ splitChar sep l, x <:+: l := by
  induction l with
  | nil =>
    intro x hx
    simp [splitChar] at hx
    simp [hx]
  | cons c cs ih =>
    intro x hx
    by_cases hc : c = sep
    · subst hc
      rw [splitChar_cons_self] at hx
      rcases List.mem_cons.mp hx with h1 | h1
      · simp [h1]
      · exact (ih x h1).trans (List.suffix_cons c cs).isInfix
    · obtain ⟨p, ps, h, hp⟩ := splitChar_head_prefixOf sep cs
      rw [splitChar_cons_ne sep c hc h] at hx
      rcases List.mem_cons.mp hx with h1 | h1
      · subst h1
        exact (List.cons_prefix_cons.mpr ⟨rfl, hp⟩).isInfix
      · have : x ∈ splitChar sep cs := h ▸ List.mem_cons_of_mem p h1
        exact (ih x this).trans (List.suffix_cons c cs).isInfix

theorem splitChar_sep_not_mem (sep : Char) (l : Str) :
    ∀ x ∈ splitChar sep l, sep ∉ x := by
  induction l with
  | nil =>
    intro x hx
    simp [splitChar] at hx
    simp [hx]
  | cons c cs ih =>
    intro x hx
    by_cases hc : c = sep
    · subst hc
      rw [splitChar_cons_self] at hx
      rcases List.mem_cons.mp hx with h1 | h1
      · simp [h1]
      · exact ih x h1
    · obtain ⟨p, ps, h, _⟩ := splitChar_head_prefixOf sep cs
      rw [splitChar_cons_ne sep c hc h] at hx
      rcases List.mem_cons.mp hx with h1 | h1
      · subst h1
        intro hm
        rcases List.mem_cons.mp hm with h2 | h2
        · exact hc h2.symm
        · exact ih p (h ▸ List.mem_cons_self p ps) h2
      · exact ih x (h ▸ List.mem_cons_of_mem p h1)

theorem splitChar_no_sep (sep : Char) (l : Str) (h : sep ∉ l) :
    splitChar sep l = [l] := by
  induction l with
  | nil => rfl
  | cons c cs ih =>
    have hc : ¬(c = sep) := fun he => h (he ▸ List.mem_cons_self c cs)
    have hcs : sep ∉ cs := fun hm => h (List.mem_cons_of_mem c hm)
    exact splitChar_cons_ne sep c hc (ih hcs)

theorem splitChar_append (sep : Char) (xs ys : Str) :
    splitChar sep (xs ++ ys) = glueSplit (splitChar sep xs) (splitChar sep ys) := by
  induction xs with
  | nil =>
    obtain ⟨p, ps, h, _⟩ := splitChar_head_prefixOf sep ys
    rw [List.nil_append, h]
    simp [splitChar, glueSplit]
  | cons c cs ih =>
    by_cases hc : c = sep
    · subst hc
      rw [List.cons_append, splitChar_cons_self, splitChar_cons_self, ih]
      obtain ⟨p, ps, h, _⟩ := splitChar_head_prefixOf c cs
      rw [h]
      rfl
    · obtain ⟨p, ps, h, _⟩ := splitChar_head_prefixOf sep cs
      obtain ⟨q, qs, hy, _⟩ := splitChar_head_prefixOf sep ys
      have happ : splitChar sep (cs ++ ys) = glueSplit (p :: ps) (q :: qs) := by
        rw [ih, h, hy]
      cases ps with
      | nil =>
        have h2 : splitChar sep (cs ++ ys) = (p ++ q) :: qs := by
          rw [happ]; rfl
        rw [List.cons_append, splitChar_cons_ne sep c hc h2,
          splitChar_cons_ne sep c hc h, hy]
        rfl
      | cons p2 ps2 =>
        have h2 : splitChar sep (cs ++ ys) = p :: glueSplit (p2 :: ps2) (q :: qs) := by
          rw [happ]; rfl
        rw [List.cons_append, splitChar_cons_ne sep c hc h2,
          splitChar_cons_ne sep c hc h, hy]
        rfl

theorem glueSplit_empty_sep (L : List Str) (hL : L ≠ []) :
    glueSplit L ([] :: [[]]) = L ++ [[]] := by
  induction L with
  | nil => exact absurd rfl hL
  | cons a L ih =>
    cases L with
    | nil => simp [glueSplit]
    | cons b bs =>
      show a :: glueSplit (b :: bs) ([] :: [[]]) = a :: ((b :: bs) ++ [[]])
      rw [ih (by simp)]

theorem glueSplit_last (y : Str) (L : List Str) (q : Str) :
    glueSplit (L ++ [q]) [y] = L ++ [q ++ y] := by
  induction L with
  | nil => rfl
  | cons a L ih =>
    cases hL : L ++ [q] with
    | nil => exact absurd hL (by simp)
    | cons b bs =>
      show glueSplit (a :: (L ++ [q])) [y] = a :: (L ++ [q ++ y])
      rw [hL]
      show a :: glueSplit (b :: bs) [y] = a :: (L ++ [q ++ y])
      rw [← hL, ih]

theorem splitChar_reverse (sep : Char) (l : Str) :
    splitChar sep l.reverse = (List.map List.reverse (splitChar sep l)).reverse := by
  induction l with
  | nil => rfl
  | cons c cs ih =>
    rw [List.reverse_cons, splitChar_append sep cs.reverse [c], ih]
    by_cases hc : c = sep
    · subst hc
      rw [show splitChar c [c] = [[], []] from by simp [splitChar]]
      obtain ⟨p, ps, h, _⟩ := splitChar_head_prefixOf c cs
      rw [splitChar_cons_self, h]
      rw [glueSplit_empty_sep _ (by simp)]
      simp
    · rw [show splitChar sep [c] = [[c]] from by simp [splitChar, hc]]
      obtain ⟨p, ps, h, _⟩ := splitChar_head_prefixOf sep cs
      rw [h, splitChar_cons_ne sep c hc h]
      rw [show (List.map List.reverse (p :: ps)).reverse
            = (List.map List.reverse ps).reverse ++ [p.reverse] from by simp]
      rw [glueSplit_last]
      simp

-- ### outer strip commutes with per-part strip
theorem map_pyStrip_splitChar_lstrip (sep : Char) (hsep : pySpace sep = false)
    (l : Str) :
    (splitChar sep (lstrip l)).map pyStrip = (splitChar sep l).map pyStrip := by
  induction l with
  | nil => rfl
  | cons c cs ih =>
    cases hc : pySpace c with
    | true =>
      have hcs : ¬(c = sep) := fun he => by rw [he, hsep] at hc; exact Bool.false_ne_true hc
      rw [lstrip_cons_of_space hc, ih]
      obtain ⟨p, ps, h, _⟩ := splitChar_head_prefixOf sep cs
      rw [h, splitChar_cons_ne sep c hcs h]
      simp [pyStrip_cons_of_space hc]
    | false =>
      rw [lstrip_cons_of_not hc]

theorem map_pyStrip_splitChar_rstrip (sep : Char) (hsep : pySpace sep = false)
    (l : Str) :
    (splitChar sep (rstrip l)).map pyStrip = (splitChar sep l).map pyStrip := by
  have hfun : ∀ L : List Str,
      (L.map List.reverse).map pyStrip = (L.map pyStrip).map List.reverse := by
    intro L
    rw [List.map_map, List.map_map]
    exact List.map_congr_left (fun x _ => pyStrip_reverse x)
  rw [show rstrip l = (lstrip l.reverse).reverse from rfl,
    splitChar_reverse sep (lstrip l.reverse), List.map_reverse, hfun,
    map_pyStrip_splitChar_lstrip sep hsep l.reverse,
    splitChar_reverse sep l, List.map_reverse, hfun]
  simp [List.map_map]

theorem map_pyStrip_splitChar_pyStrip (sep : Char) (hsep : pySpace sep = false)
    (l : Str) :
    (splitChar sep (pyStrip l)).map pyStrip = (splitChar sep l).map pyStrip := by
  show (splitChar sep (rstrip (lstrip l))).map pyStrip = _
  rw [map_pyStrip_splitChar_rstrip sep hsep (lstrip l),
    map_pyStrip_splitChar_lstrip sep hsep l]

namespace Pdf

theorem collapseWs_cons_not {a : Char} (h : pySpace a = false) (l : Str) :
    collapseWs (a :: l) = a :: collapseWs l := by
  cases l with
  | nil => simp [collapseWs, h]
  | cons b bs => simp [collapseWs, h]

theorem collapseWs_cons_head {a : Char} (l : Str)
    (h : ∀ c, l.head? = some c → (pySpace a && pySpace c) = false) :
    collapseWs (a :: l) = (if pySpace a then ' ' else a) :: collapseWs l := by
  cases l with
  | nil =>
    cases hpa : pySpace a <;> simp [collapseWs, hpa]
  | cons b bs =>
    have hab := h b rfl
    show collapseWs (a :: b :: bs) = _
    rw [collapseWs, if_neg (by simp [hab])]

theorem normWs_collapseWs (s : Str) : NormWs (collapseWs s) := by
  induction s with
  | nil => exact ⟨by simp [collapseWs], by simp [collapseWs]⟩
  | cons a t ih =>
    cases t with
    | nil =>
      cases ha : pySpace a <;> simp [collapseWs, ha, NormWs]
    | cons b cs =>
      cases hab : (pySpace a && pySpace b) with
      | true =>
        rw [show collapseWs (a :: b :: cs) = collapseWs (b :: cs) from by
          rw [collapseWs, if_pos hab]]
        exact ih
      | false =>
        rw [show collapseWs (a :: b :: cs)
              = (if pySpace a then ' ' else a) :: collapseWs (b :: cs) from by
            rw [collapseWs, if_neg (by simp [hab])]]
        constructor
        · intro c hc hsp
          rcases List.mem_cons.mp hc with h1 | h1
          · subst h1
            cases hpa : pySpace a with
            | true => simp [hpa]
            | false => rw [if_neg (by simp [hpa])] at hsp; rw [hpa] at hsp; cases hsp
          · exact ih.1 c h1 hsp
        · rw [List.chain'_cons']
          refine ⟨?_, ih.2⟩
          intro h hh
          cases hpa : pySpace a with
          | false =>
            rw [if_neg (by simp [hpa])]
            exact fun hcon => by rw [hpa] at hcon; cases hcon.1
          | true =>
            have hb : pySpace b = false := by
              cases hpb : pySpace b
              · rfl
              · rw [hpa, hpb] at hab; cases hab
            rw [if_pos (by simp [hpa])]
            rw [collapseWs_cons_not hb cs] at hh
            simp at hh
            subst hh
            exact fun hcon => by rw [hb] at hcon; cases hcon.2

theorem collapseWs_eq_self (s : Str) (h : NormWs s) : collapseWs s = s := by
  induction s with
  | nil => rfl
  | cons a t ih =>
    cases t with
    | nil =>
      cases ha : pySpace a with
      | true =>
        have : a = ' ' := h.1 a (List.mem_cons_self a []) ha
        subst this
        rfl
      | false => simp [collapseWs, ha]
    | cons b cs =>
      have hadj : noAdjWs a b := (List.chain'_cons.mp h.2).1
      have hab : (pySpace a && pySpace b) = false := by
        cases hpa : pySpace a
        · rfl
        · cases hpb : pySpace b
          · simp
          · exact absurd ⟨hpa, hpb⟩ hadj
      have htail : NormWs (b :: cs) :=
        ⟨fun c hc => h.1 c (List.mem_cons_of_mem a hc), (List.chain'_cons.mp h.2).2⟩
      rw [show collapseWs (a :: b :: cs)
            = (if pySpace a then ' ' else a) :: collapseWs (b :: cs) from by
          rw [collapseWs, if_neg (by simp [hab])], ih htail]
      cases hpa : pySpace a with
      | true => rw [if_pos (by simp [hpa]), h.1 a (List.mem_cons_self a (b :: cs)) hpa]
      | false => rw [if_neg (by simp [hpa])]

theorem normWs_infix {s t : Str} (h : NormWs t) (hi : s <:+: t) : NormWs s :=
  ⟨fun c hc hsp => h.1 c (hi.subset hc) hsp, List.Chain'.infix h.2 hi⟩

theorem splitChar_collapseWs_aux (n : Nat) :
    ∀ s : Str, s.length ≤ n →
      splitChar '/' (collapseWs s) = (splitChar '/' s).map collapseWs := by
  induction n with
  | zero =>
    intro s hs
    rw [List.length_eq_zero.mp (Nat.le_zero.mp hs)]
    rfl
  | succ n ih =>
    intro s hs
    match s with
    | [] => rfl
    | [a] =>
      cases ha : pySpace a with
      | true =>
        have ha2 : ¬(a = '/') := fun he => by rw [he] at ha; exact absurd ha (by decide)
        rw [show collapseWs [a] = [' '] from by simp [collapseWs, ha],
          splitChar_no_sep '/' [' '] (by decide),
          splitChar_no_sep '/' [a] (by simp only [List.mem_singleton]; exact Ne.symm ha2)]
        simp [collapseWs, ha]
      | false =>
        rw [show collapseWs [a] = [a] from by simp [collapseWs, ha]]
        by_cases ha2 : a = '/'
        · subst ha2
          rfl
        · rw [splitChar_no_sep '/' [a] (by simp only [List.mem_singleton]; exact Ne.symm ha2)]
          simp [collapseWs, ha]
    | a :: b :: cs =>
      have hlen : (b :: cs).length ≤ n := by
        simp only [List.length_cons] at hs ⊢
        omega
      cases hab : (pySpace a && pySpace b) with
      | true =>
        have hpa : pySpace a = true := (Bool.and_eq_true _ _ |>.mp hab).1
        have hpb : pySpace b = true := (Bool.and_eq_true _ _ |>.mp hab).2
        have ha2 : ¬(a = '/') := fun he => by rw [he] at hpa; exact absurd hpa (by decide)
        have hb2 : ¬(b = '/') := fun he => by rw [he] at hpb; exact absurd hpb (by decide)
        rw [show collapseWs (a :: b :: cs) = collapseWs (b :: cs) from by
          rw [collapseWs, if_pos hab], ih (b :: cs) hlen]
        obtain ⟨p2, ps2, hcs2, _⟩ := splitChar_head_prefixOf '/' cs
        have hbs : splitChar '/' (b :: cs) = (b :: p2) :: ps2 :=
          splitChar_cons_ne '/' b hb2 hcs2
        rw [hbs, splitChar_cons_ne '/' a ha2 hbs]
        simp only [List.map_cons]
        rw [show collapseWs (a :: b :: p2) = collapseWs (b :: p2) from by
          rw [collapseWs, if_pos hab]]
      | false =>
        have hcol : collapseWs (a :: b :: cs)
            = (if pySpace a then ' ' else a) :: collapseWs (b :: cs) := by
          rw [collapseWs, if_neg (by simp [hab])]
        by_cases ha2 : a = '/'
        · subst ha2
          rw [hcol, if_neg (by decide), splitChar_cons_self, splitChar_cons_self,
            ih (b :: cs) hlen]
          rfl
        · have hpf : ¬((if pySpace a then ' ' else a) = '/') := by
            cases hpa : pySpace a
            · simpa [hpa] using ha2
            · simp [hpa]
          obtain ⟨pb, psb, hbcs, _⟩ := splitChar_head_prefixOf '/' (b :: cs)
          have hdecomp : splitChar '/' (collapseWs (b :: cs))
              = collapseWs pb :: List.map collapseWs psb := by
            rw [ih (b :: cs) hlen, hbcs]
            rfl
          have hhead : ∀ c, pb.head? = some c → (pySpace a && pySpace c) = false := by
            intro c hcHead
            by_cases hb2 : b = '/'
            · subst hb2
              rw [splitChar_cons_self] at hbcs
              have : pb = [] := (List.cons.injEq _ _ _ _ |>.mp hbcs).1.symm
              rw [this] at hcHead
              cases hcHead
            · obtain ⟨p2, ps2, hcs2, _⟩ := splitChar_head_prefixOf '/' cs
              rw [splitChar_cons_ne '/' b hb2 hcs2] at hbcs
              have hpb : pb = b :: p2 := (List.cons.injEq _ _ _ _ |>.mp hbcs).1.symm
              rw [hpb] at hcHead
              have hcb : b = c := by simpa using hcHead
              rw [← hcb]
              exact hab
          rw [hcol, splitChar_cons_ne '/' _ hpf hdecomp,
            splitChar_cons_ne '/' a ha2 hbcs]
          simp only [List.map_cons]
          rw [collapseWs_cons_head pb hhead]

theorem splitChar_collapseWs (s : Str) :
    splitChar '/' (collapseWs s) = (splitChar '/' s).map collapseWs :=
  splitChar_collapseWs_aux s.length s (Nat.le_refl _)

end Pdf

theorem rstrip_congr {l l2 : Str} (h : rstrip l = rstrip l2) (c : Char) :
    rstrip (c :: l) = rstrip (c :: l2) := by
  rw [rstrip_cons, rstrip_cons, h]

namespace Pdf

theorem pyStrip_collapseWs_cons_space (p : Str) :
    pyStrip (collapseWs (' ' :: p)) = pyStrip (collapseWs p) := by
  have hsp : pySpace ' ' = true := by decide
  cases p with
  | nil => rfl
  | cons b bs =>
    cases hb : pySpace b with
    | true =>
      rw [show collapseWs (' ' :: b :: bs) = collapseWs (b :: bs) from by
        rw [collapseWs, if_pos (by simp [hb, hsp])]]
    | false =>
      rw [show collapseWs (' ' :: b :: bs) = ' ' :: collapseWs (b :: bs) from by
        rw [collapseWs, if_neg (by simp [hb]), if_pos hsp],
        pyStrip_cons_of_space hsp]

theorem rstrip_collapseWs_concat_space (s : Str) :
    rstrip (collapseWs (s ++ [' '])) = rstrip (collapseWs s) := by
  induction s with
  | nil => rfl
  | cons a t ih =>
    cases t with
    | nil =>
      have hsp : pySpace ' ' = true := by decide
      cases ha : pySpace a with
      | true => simp [collapseWs, ha, hsp]
      | false =>
        have h1 : collapseWs ([a] ++ [' ']) = a :: [' '] := by
          simp [collapseWs, ha, hsp]
        have h2 : collapseWs [a] = [a] := by simp [collapseWs, ha]
        rw [h1, h2]
        exact rstrip_congr (by decide) a
    | cons b cs =>
      have hred : (a :: b :: cs) ++ [' '] = a :: b :: (cs ++ [' ']) := rfl
      cases hab : (pySpace a && pySpace b) with
      | true =>
        rw [hred,
          show collapseWs (a :: b :: (cs ++ [' '])) = collapseWs (b :: (cs ++ [' '])) from by
            rw [collapseWs, if_pos hab],
          show collapseWs (a :: b :: cs) = collapseWs (b :: cs) from by
            rw [collapseWs, if_pos hab]]
        exact ih
      | false =>
        rw [hred,
          show collapseWs (a :: b :: (cs ++ [' ']))
              = (if pySpace a then ' ' else a) :: collapseWs (b :: (cs ++ [' '])) from by
            rw [collapseWs, if_neg (by simp [hab])],
          show collapseWs (a :: b :: cs)
              = (if pySpace a then ' ' else a) :: collapseWs (b :: cs) from by
            rw [collapseWs, if_neg (by simp [hab])]]
        exact rstrip_congr ih _

theorem pyStrip_collapseWs_concat_space (q : Str) (hn : NormWs q)
    (hs : pyStrip q = q) : pyStrip (collapseWs (q ++ [' '])) = q := by
  rw [pyStrip_eq_lr, rstrip_collapseWs_concat_space, ← pyStrip_eq_lr,
    collapseWs_eq_self q hn, hs]

theorem intercalate_single (sep : List Char) (x : Str) :
    List.intercalate sep [x] = x := by
  simp [List.intercalate]

theorem intercalate_cons2 (sep : List Char) (x y : Str) (zs : List Str) :
    List.intercalate sep (x :: y :: zs) = x ++ sep ++ List.intercalate sep (y :: zs) := by
  simp [List.intercalate, List.intersperse]

theorem clean_intercalate (qs : List Str) :
    ∀ q0 : Str, (∀ q ∈ q0 :: qs, cleanPart q) →
      (splitChar '/' (List.intercalate " / ".data (q0 :: qs))).map
          (fun p => pyStrip (collapseWs p)) = q0 :: qs := by
  induction qs with
  | nil =>
    intro q0 h
    obtain ⟨hn, hs, hns⟩ := h q0 (List.mem_cons_self q0 [])
    rw [intercalate_single, splitChar_no_sep '/' q0 hns]
    simp only [List.map_cons, List.map_nil, collapseWs_eq_self q0 hn, hs]
  | cons q1 rest ih =>
    intro q0 h
    obtain ⟨hn, hs, hns⟩ := h q0 (List.mem_cons_self q0 (q1 :: rest))
    rw [intercalate_cons2, List.append_assoc,
      splitChar_append '/' q0 (" / ".data ++ List.intercalate " / ".data (q1 :: rest)),
      splitChar_no_sep '/' q0 hns]
    obtain ⟨p, ps, hT, _⟩ := splitChar_head_prefixOf '/' (List.intercalate " / ".data (q1 :: rest))
    have h1 : splitChar '/' (' ' :: List.intercalate " / ".data (q1 :: rest))
        = (' ' :: p) :: ps := splitChar_cons_ne '/' ' ' (by decide) hT
    have h2 : splitChar '/' ('/' :: ' ' :: List.intercalate " / ".data (q1 :: rest))
        = [] :: (' ' :: p) :: ps := by rw [splitChar_cons_self, h1]
    have h3 : splitChar '/' (' ' :: '/' :: ' ' :: List.intercalate " / ".data (q1 :: rest))
        = [' '] :: (' ' :: p) :: ps := splitChar_cons_ne '/' ' ' (by decide) h2
    rw [show " / ".data ++ List.intercalate " / ".data (q1 :: rest)
          = ' ' :: '/' :: ' ' :: List.intercalate " / ".data (q1 :: rest) from rfl, h3]
    rw [show glueSplit [q0] ([' '] :: (' ' :: p) :: ps)
          = (q0 ++ [' ']) :: (' ' :: p) :: ps from rfl]
    simp only [List.map_cons]
    rw [pyStrip_collapseWs_concat_space q0 hn hs, pyStrip_collapseWs_cons_space p]
    have hrec := ih q1 (fun q hq => h q (List.mem_cons_of_mem q0 hq))
    rw [hT] at hrec
    simp only [List.map_cons] at hrec
    rw [List.cons.injEq]
    exact ⟨rfl, hrec⟩

end Pdf

/-- C9: category-text normalization is idempotent: for every string, applying
clean_categories (collapse whitespace runs, trim, split on the slash, trim each
segment, rejoin with " / ") twice yields the same result as applying it once. -/
theorem c9_clean_categories_idem (s : Str) :
    Pdf.clean_categories (Pdf.clean_categories s) = Pdf.clean_categories s := by
  obtain ⟨p0, ps0, hsplit, _⟩ := splitChar_head_prefixOf '/' (pyStrip (Pdf.collapseWs s))
  have hclean : ∀ q ∈ (splitChar '/' (pyStrip (Pdf.collapseWs s))).map pyStrip,
      Pdf.cleanPart q := by
    intro q hq
    obtain ⟨p, hp, rfl⟩ := List.mem_map.mp hq
    refine ⟨?_, pyStrip_idem p, ?_⟩
    · exact Pdf.normWs_infix (Pdf.normWs_collapseWs s)
        (((pyStrip_infixOf p).trans
          (splitChar_mem_infixOf '/' (pyStrip (Pdf.collapseWs s)) p hp)).trans
          (pyStrip_infixOf (Pdf.collapseWs s)))
    · intro hm
      exact splitChar_sep_not_mem '/' (pyStrip (Pdf.collapseWs s)) p hp
        ((pyStrip_infixOf p).subset hm)
  have hq0 : Pdf.clean_categories s
      = List.intercalate " / ".data (pyStrip p0 :: ps0.map pyStrip) := by
    show List.intercalate " / ".data
        ((splitChar '/' (pyStrip (Pdf.collapseWs s))).map pyStrip) = _
    rw [hsplit]
    rfl
  have hM := Pdf.clean_intercalate (ps0.map pyStrip) (pyStrip p0)
    (by rw [← List.map_cons, ← hsplit]; exact hclean)
  show List.intercalate " / ".data
      ((splitChar '/' (pyStrip (Pdf.collapseWs (Pdf.clean_categories s)))).map pyStrip)
    = Pdf.clean_categories s
  rw [map_pyStrip_splitChar_pyStrip '/' (by decide),
    Pdf.splitChar_collapseWs, List.map_map]
  rw [hq0]
  exact congrArg (List.intercalate " / ".data) hM
